import Mathlib

/-!
Shallow embedding of the workflow execution engine of the pilot backend
(`backend/app/services/workflow_execution_service.py` together with the data
models in `backend/app/models`), and theorems about its scheduler, variable
resolver, node executors and run driver.

Python dicts are modelled as insertion-ordered association lists with
first-key lookup and in-place overwrite on existing keys.  The one piece of
mutable aliasing the service creates is modelled explicitly: the start-node
executor returns the context's variable dict itself (not a copy) as its
output record, so an output record holds either a literal dict or a pointer
to the run's variable scope (`OutPtr`).  Wall-clock fields (timestamps,
durations) and provider metadata no claim mentions are omitted; the external
effects (LLM completion, `exec` of a code snippet, HTTP requests) are
parameters of the driver (`Oracles`).  Python `float` progress values are
modelled as rationals; for the fractions `(i+1)/n` that occur here the two
agree on every comparison made below.
-/

namespace Pilot

/-- A JSON-ish runtime value. -/
inductive Value where
  | vStr (s : String)
  | vBool (b : Bool)
  | vInt (n : Int)
  deriving DecidableEq, Repr

/-- Python `str()` of a value. -/
def pyStr : Value → String
  | .vStr s => s
  | .vBool b => if b then "True" else "False"
  | .vInt n => toString n

/-- A Python dict with string keys, as an insertion-ordered association list. -/
abbrev Dict := List (String × Value)

/-- `d.get(k)` / `d[k]`: first entry wins (keys are unique in a real dict). -/
def dictGet (d : Dict) (k : String) : Option Value :=
  (d.find? (fun p => p.1 == k)).map (·.2)

/-- `d[k] = v`: overwrite in place if the key exists, else append. -/
def dictSet (d : Dict) (k : String) (v : Value) : Dict :=
  if d.any (fun p => p.1 == k) then d.map (fun p => if p.1 == k then (k, v) else p)
  else d ++ [(k, v)]

/-- Python `d.update(e)`. -/
def dictUpdate (d e : Dict) : Dict := e.foldl (fun acc p => dictSet acc p.1 p.2) d

/-- `k in d`. -/
def dictMem (d : Dict) (k : String) : Bool := d.any (fun p => p.1 == k)

/-- The node-type enumeration of `models/workflow.py`. -/
inductive NodeType where
  | start | endNode | llm | chat | condition | ifElse | code | templateTransform
  | variableAssigner | httpRequest | tool | knowledgeRetrieval | docExtractor
  | loop | iteration | parameterExtractor | answer
  deriving DecidableEq, Repr

/-- The type-specific node configuration (`NodeConfig` in `models/workflow.py`).
Sampling parameters and HTTP transport details that are handed unchanged to
the external collaborators are not modelled. -/
structure NodeConfig where
  title : Option String := none
  prompt : Option String := none
  systemPrompt : Option String := none
  model : Option String := some "gpt-3.5-turbo"
  conditions : Option (List Dict) := none
  logicalOperator : Option String := some "and"
  code : Option String := none
  method : Option String := some "GET"
  url : Option String := none
  template : Option String := none
  deriving DecidableEq, Repr

/-- A workflow node (layout and UI fields are display-only and omitted). -/
structure Node where
  id : String
  type : NodeType
  data : NodeConfig
  deriving DecidableEq, Repr

/-- A directed edge between two node ids. -/
structure Edge where
  source : String
  target : String
  deriving DecidableEq, Repr

/-- A workflow graph: the two fields of `Workflow` the engine reads. -/
structure Workflow where
  nodes : List Node
  edges : List Edge
  deriving DecidableEq, Repr

/-- Python truthiness fallback `o or dflt` for optional strings. -/
def pyOr (o : Option String) (dflt : String) : String :=
  match o with
  | some s => if s == "" then dflt else s
  | none => dflt

/-- Python `if not o:` for an optional string (`None` and `""` are falsy). -/
def pyFalsy (o : Option String) : Bool :=
  match o with
  | some s => s == ""
  | none => true

/-- The character set of Python `str.strip()`. -/
def pyIsSpace (c : Char) : Bool :=
  c == ' ' || c == '\t' || c == '\n' || c == '\r' || c == '\x0b' || c == '\x0c'

/-- Python `s.strip()`. -/
def pyStrip (l : List Char) : List Char :=
  ((l.dropWhile pyIsSpace).reverse.dropWhile pyIsSpace).reverse

/-- Boolean prefix test on character lists (Python `startswith`). -/
def leadsWith : List Char → List Char → Bool
  | [], _ => true
  | _ :: _, [] => false
  | a :: as, b :: bs => a == b && leadsWith as bs

/-- One attempt of the regex `\x7b\x7b([^\x7d]+)\x7d\x7d` at a position whose
next two characters are already known to be braces: greedily take the
non-`\x7d` run, then require two closing braces.  Returns the capture and the
remainder after the match. -/
def matchAt (rest : List Char) : Option (List Char × List Char) :=
  match rest.drop ((rest.takeWhile (fun c => c != '\x7d')).length) with
  | '\x7d' :: '\x7d' :: rest2 =>
    if (rest.takeWhile (fun c => c != '\x7d')).isEmpty then none
    else some (rest.takeWhile (fun c => c != '\x7d'), rest2)
  | _ => none

/-- Fuelled scanner body for `findAll`.  Each step consumes at least one
character of the remaining string and one unit of fuel, so with the string's
length as fuel the zero-fuel branch is unreachable and the function agrees
with the unbounded scan of `re.findall`. -/
def findAllAux : Nat → List Char → List (List Char)
  | _, [] => []
  | 0, _ :: _ => []
  | fuel + 1, '\x7b' :: '\x7b' :: rest =>
    match matchAt rest with
    | some (content, rest2) => content :: findAllAux fuel rest2
    | none => findAllAux fuel ('\x7b' :: rest)
  | fuel + 1, _ :: rest => findAllAux fuel rest

/-- `re.findall(r'\x7b\x7b([^\x7d]+)\x7d\x7d', text)`: scan left to right,
emitting each capture and resuming after the full match; on failure advance
one character. -/
def findAll (l : List Char) : List (List Char) := findAllAux l.length l

/-- Fuelled body of Python `s.replace(old, new)`; as above the fuel
`s.length` never runs out because `old` is nonempty at every call site. -/
def strReplaceAux (old new : List Char) : Nat → List Char → List Char
  | _, [] => []
  | 0, s => s
  | fuel + 1, c :: rest =>
    if old ≠ [] ∧ leadsWith old (c :: rest) = true then
      new ++ strReplaceAux old new fuel ((c :: rest).drop old.length)
    else c :: strReplaceAux old new fuel rest

/-- Python `s.replace(old, new)` (all non-overlapping occurrences, left to
right); `old` is never empty at the call sites below. -/
def strReplace (s old new : List Char) : List Char := strReplaceAux old new s.length s

/-- An output record's dict is either a fresh literal dict or the very object
that holds the run's variable scope (the start node returns
`context["variables"]` itself). -/
inductive OutPtr where
  | varsAlias
  | lit (d : Dict)
  deriving DecidableEq, Repr

/-- Dereference an output pointer against the current variable scope. -/
def readOut (vars : Dict) : OutPtr → Dict
  | .varsAlias => vars
  | .lit d => d

/-- The per-node result dict built by `_execute_node`. -/
structure NodeRecord where
  status : String
  error : Option String := none
  outputs : OutPtr
  logs : List String := []
  deriving DecidableEq, Repr

/-- Lookup in the `node_outputs` dict. -/
def outsGet (outs : List (String × NodeRecord)) (nid : String) : Option NodeRecord :=
  (outs.find? (fun p => p.1 == nid)).map (·.2)

/-- `node_outputs[nid] = rec`. -/
def outsSet (outs : List (String × NodeRecord)) (nid : String) (rec : NodeRecord) :
    List (String × NodeRecord) :=
  if outs.any (fun p => p.1 == nid) then
    outs.map (fun p => if p.1 == nid then (nid, rec) else p)
  else outs ++ [(nid, rec)]

/-- Resolve one stripped placeholder name: a dotted `node_id.field` reference
is tried against the node-output map first; on a miss the whole (dotted or
bare) name is looked up in the variable scope. -/
def resolveName (name : List Char) (vars : Dict)
    (nodeOutputs : List (String × NodeRecord)) : Option Value :=
  let fromNodes : Option Value :=
    if name.contains '.' then
      let nid := (name.takeWhile (fun c => c != '.')).asString
      let field := (name.drop ((name.takeWhile (fun c => c != '.')).length + 1)).asString
      match outsGet nodeOutputs nid with
      | some rec => dictGet (readOut vars rec.outputs) field
      | none => none
    else none
  match fromNodes with
  | some v => some v
  | none => dictGet vars name.asString

/-- The body of the `for match in matches` loop of `_replace_variables`:
strip the capture, resolve it, and (only if resolution succeeded) replace
every occurrence of `\x7b\x7b` + stripped-name + `\x7d\x7d` in the evolving
result. -/
def applyMatch (vars : Dict) (nodeOutputs : List (String × NodeRecord))
    (result m : List Char) : List Char :=
  let name := pyStrip m
  match resolveName name vars nodeOutputs with
  | some v => strReplace result ('\x7b' :: '\x7b' :: name ++ ['\x7d', '\x7d']) (pyStr v).toList
  | none => result

/-- `_replace_variables`: collect all placeholder captures from the original
text, then fold the replacement step over them. -/
def replaceVariables (text : String) (vars : Dict)
    (nodeOutputs : List (String × NodeRecord)) : String :=
  ((findAll text.toList).foldl (applyMatch vars nodeOutputs) text.toList).asString

/-- The external collaborators the executors call out to. -/
structure Oracles where
  llm : List (String × String) → String → Except String String
  runCode : String → Dict → Except String Value
  http : String → String → Except String (Int × Value × Value)

/-- An executor's raw result before `_execute_node` stamps a status on it. -/
structure PreRecord where
  outputs : OutPtr
  logs : List String

/-- The reverse scan of `_execute_answer_node`: walk the node-output items
most recent first and take the first record exposing `text`, else `output`,
else `result` (the latter stringified); default is the empty string. -/
def answerScanRev (vars : Dict) : List (String × NodeRecord) → Value
  | [] => .vStr ""
  | (_, rec) :: rest =>
    let o := readOut vars rec.outputs
    match dictGet o "text" with
    | some v => v
    | none =>
      match dictGet o "output" with
      | some v => v
      | none =>
        match dictGet o "result" with
        | some v => .vStr (pyStr v)
        | none => answerScanRev vars rest

/-- `_execute_answer_node`. -/
def executeAnswerNode (vars : Dict) (nodeOutputs : List (String × NodeRecord)) :
    PreRecord :=
  let finalOutput := answerScanRev vars nodeOutputs.reverse
  ⟨.lit [("answer", finalOutput), ("final_output", finalOutput)], ["Final answer prepared"]⟩

/-- The type-dispatched executor bodies; a raised exception is an `error`. -/
def executeNodeInner (orc : Oracles) (node : Node) (vars : Dict)
    (nodeOutputs : List (String × NodeRecord)) : Except String PreRecord :=
  match node.type with
  | .start => .ok ⟨.varsAlias, ["Workflow started with input variables"]⟩
  | .llm | .chat =>
    if pyFalsy node.data.prompt then .error "LLM node requires a prompt"
    else
      let prompt := replaceVariables (node.data.prompt.getD "") vars nodeOutputs
      let sysMsgs : List (String × String) :=
        if pyFalsy node.data.systemPrompt then []
        else [("system", replaceVariables (node.data.systemPrompt.getD "") vars nodeOutputs)]
      match orc.llm (sysMsgs ++ [("user", prompt)]) (pyOr node.data.model "gpt-3.5-turbo") with
      | .error e => .error e
      | .ok content =>
        .ok ⟨.lit [("text", .vStr content), (node.id ++ ".text", .vStr content)],
             ["LLM call completed"]⟩
  | .code =>
    if pyFalsy node.data.code then .error "Code node requires code"
    else
      let codeText := replaceVariables (node.data.code.getD "") vars nodeOutputs
      match orc.runCode codeText vars with
      | .error e => .error ("Code execution failed: " ++ e)
      | .ok v =>
        .ok ⟨.lit [("result", v), (node.id ++ ".result", v)], ["Code executed successfully"]⟩
  | .condition =>
    let conds := node.data.conditions.getD []
    if conds.isEmpty then
      .ok ⟨.lit [("result", .vBool true)], ["No conditions specified, defaulting to true"]⟩
    else
      let results := conds.map (fun _ => true)
      let logicalOp := pyOr node.data.logicalOperator "and"
      let finalResult := if logicalOp == "and" then results.all id else results.any id
      .ok ⟨.lit [("result", .vBool finalResult), (node.id ++ ".result", .vBool finalResult)],
           ["Condition evaluated"]⟩
  | .httpRequest =>
    if pyFalsy node.data.url then .error "HTTP node requires a URL"
    else
      let url := replaceVariables (node.data.url.getD "") vars nodeOutputs
      match orc.http (pyOr node.data.method "GET") url with
      | .error e => .error ("HTTP request failed: " ++ e)
      | .ok (status, headersV, bodyV) =>
        .ok ⟨.lit [("status_code", .vInt status), ("headers", headersV), ("body", bodyV),
                   (node.id ++ ".status_code", .vInt status), (node.id ++ ".body", bodyV)],
             ["HTTP request completed"]⟩
  | .templateTransform =>
    if pyFalsy node.data.template then .error "Template node requires a template"
    else
      let output := replaceVariables (node.data.template.getD "") vars nodeOutputs
      .ok ⟨.lit [("output", .vStr output), (node.id ++ ".output", .vStr output)],
           ["Template processed"]⟩
  | .answer => .ok (executeAnswerNode vars nodeOutputs)
  | _ => .ok ⟨.lit [], ["Node type not implemented yet"]⟩

/-- `_execute_node`: dispatch and catch.  Every exception an executor raises
is caught here and turned into a record with status `"failed"`; the function
itself never raises, so the driver's own node-failure branch can never run. -/
def executeNode (orc : Oracles) (node : Node) (vars : Dict)
    (nodeOutputs : List (String × NodeRecord)) : NodeRecord :=
  match executeNodeInner orc node vars nodeOutputs with
  | .ok pre => { status := "completed", error := none, outputs := pre.outputs, logs := pre.logs }
  | .error e =>
    { status := "failed", error := some e, outputs := .lit [],
      logs := ["Node execution failed: " ++ e] }

/-- Accumulator pass for `dedupKeys`: keep the first occurrence of each key,
remembering in `seen` the keys already emitted. -/
def dedupAux : List String → List String → List String
  | [], _ => []
  | k :: rest, seen =>
    if k ∈ seen then dedupAux rest seen else k :: dedupAux rest (seen ++ [k])

/-- Key list of the dict comprehension over node ids: first occurrence wins. -/
def dedupKeys (l : List String) : List String := dedupAux l []

/-- `in_degree[k]`. -/
def degGet (deg : List (String × Int)) (k : String) : Option Int :=
  (deg.find? (fun p => p.1 == k)).map (·.2)

/-- `in_degree[k] += 1`. -/
def incrDeg (deg : List (String × Int)) (k : String) : List (String × Int) :=
  deg.map (fun p => if p.1 == k then (p.1, p.2 + 1) else p)

/-- `in_degree[k] -= 1`. -/
def decrDeg (deg : List (String × Int)) (k : String) : List (String × Int) :=
  deg.map (fun p => if p.1 == k then (p.1, p.2 - 1) else p)

/-- The adjacency list `graph[k]` that the edge-loop builds: targets of the
edges whose source is `k`, in edge order. -/
def adjOf (wf : Workflow) (k : String) : List String :=
  (wf.edges.filter (fun e => e.source == k)).map (·.target)

/-- One edge of the loop of `_get_execution_order`: `graph[edge.source]`
raises `KeyError` when the source is not a node id, then
`in_degree[edge.target]` raises when the target is not; otherwise the
target's in-degree grows. -/
def inDegStep (keys : List String) (deg : List (String × Int)) (e : Edge) :
    Except String (List (String × Int)) :=
  if keys.contains e.source then
    if deg.any (fun p => p.1 == e.target) then .ok (incrDeg deg e.target)
    else .error ("KeyError: " ++ e.target)
  else .error ("KeyError: " ++ e.source)

/-- The edge loop of `_get_execution_order`, starting from all-zero
in-degrees over the node-id keys. -/
def buildInDeg (keys : List String) (edges : List Edge) :
    Except String (List (String × Int)) :=
  edges.foldlM (inDegStep keys) (keys.map (fun k => (k, (0 : Int))))

/-- The inner `for neighbor in graph[node_id]` loop: decrement each
neighbour's in-degree and enqueue it the moment the stored value hits zero. -/
def processNeighbors : List (String × Int) → List String → List String →
    List (String × Int) × List String
  | deg, queue, [] => (deg, queue)
  | deg, queue, n :: ns =>
    let deg' := decrDeg deg n
    let queue' := if degGet deg' n == some 0 then queue ++ [n] else queue
    processNeighbors deg' queue' ns

/-- The `while queue` loop of Kahn's algorithm, fuelled.  The fuel
`keys.length + 1` used below never runs out: each iteration pops one element
of a duplicate-free queue drawn from `keys` (proved in the invariant lemmas
below), so the source's unbounded `while` makes exactly the same pops. -/
def kahnLoop (wf : Workflow) : Nat → List (String × Int) → List String → List String →
    List String
  | 0, _, _, res => res
  | _ + 1, _, [], res => res
  | fuel + 1, deg, q :: queue, res =>
    let dq := processNeighbors deg queue (adjOf wf q)
    kahnLoop wf fuel dq.1 dq.2 (res ++ [q])

/-- `node_map[nid]` where `node_map = {node.id: node ...}`: on duplicate ids
the last assignment wins. -/
def nodeMapGet (wf : Workflow) (nid : String) : Option Node :=
  wf.nodes.reverse.find? (fun n => n.id == nid)

/-- `_get_execution_order`: build in-degrees, seed the queue with the zero
in-degree ids in dict order, run Kahn's loop, and map ids back to nodes.
There is no check that the produced order covers every node: ids left with
positive in-degree (every node on a cycle) are silently dropped. -/
def getExecutionOrder (wf : Workflow) : Except String (List Node) :=
  let keys := dedupKeys (wf.nodes.map (·.id))
  match buildInDeg keys wf.edges with
  | .error e => .error e
  | .ok deg =>
    let seed := (deg.filter (fun p => p.2 == 0)).map (·.1)
    let order := kahnLoop wf (keys.length + 1) deg seed []
    .ok (order.filterMap (fun nid => nodeMapGet wf nid))

/-- The execution-status enumeration of `models/execution.py`. -/
inductive ExecutionStatus where
  | pending | running | completed | failed | cancelled | paused
  deriving DecidableEq, Repr

/-- The events `execute_workflow` yields.  `nodeFailed` exists in the source
(lines 94-104) but is unreachable: `_execute_node` never raises. -/
inductive Event where
  | executionStarted (totalNodes : Nat)
  | progressUpdate (progress : ℚ) (nodeId : String)
  | nodeCompleted (nodeId : String) (result : NodeRecord)
  | nodeFailed (nodeId : String) (error : String)
  | executionCompleted (outputData : Dict)
  | executionFailed (error : String)
  deriving DecidableEq, Repr

/-- The mutable state threaded through the driver's node loop. -/
structure LoopState where
  vars : Dict
  nodeOutputs : List (String × NodeRecord)
  executed : List String
  events : List Event
  deriving DecidableEq, Repr

/-- One iteration of the driver's `for i, node in enumerate(execution_order)`
loop: skip already-executed ids, emit the progress fraction `(i+1)/total`,
run the node, store its record, merge its outputs into the variable scope
(the start node merges the scope into itself), and emit `node_completed` --
even when the stored record's status is `"failed"`. -/
def stepNode (orc : Oracles) (total : Nat) (st : LoopState) (p : Nat × Node) : LoopState :=
  if st.executed.contains p.2.id then st
  else
    let node := p.2
    let progress : ℚ := (p.1 + 1 : ℚ) / (total : ℚ)
    let recd := executeNode orc node st.vars st.nodeOutputs
    { vars := dictUpdate st.vars (readOut st.vars recd.outputs)
      nodeOutputs := outsSet st.nodeOutputs node.id recd
      executed := st.executed ++ [node.id]
      events := st.events ++ [.progressUpdate progress node.id, .nodeCompleted node.id recd] }

/-- `_extract_final_outputs`. -/
def extractFinalOutputs (wf : Workflow) (vars : Dict)
    (outs : List (String × NodeRecord)) : Dict :=
  let answerNodes := wf.nodes.filter (fun n => n.type == .answer || n.type == .endNode)
  if !answerNodes.isEmpty then
    answerNodes.foldl (fun acc n =>
      match outsGet outs n.id with
      | some recd => dictUpdate acc (readOut vars recd.outputs)
      | none => acc) []
  else
    match outs.getLast? with
    | some p => dictUpdate [] (readOut vars p.2.outputs)
    | none => []

/-- The outcome of one run: the yielded events plus the final execution
fields and context. -/
structure RunResult where
  events : List Event
  status : ExecutionStatus
  errorMessage : Option String
  outputData : Option Dict
  finalState : LoopState
  deriving DecidableEq, Repr

/-- `execute_workflow`: yield `execution_started`, check for a start node,
compute the order (both failures land in the outer `except`, yielding
`execution_failed`), then drive the loop.  Because `_execute_node` catches
every executor exception, the loop always runs to the end of the order and
the run always completes. -/
def executeWorkflow (orc : Oracles) (wf : Workflow) (inputData : Dict) : RunResult :=
  let ev0 : List Event := [.executionStarted wf.nodes.length]
  let st0 : LoopState := ⟨inputData, [], [], ev0⟩
  if !(wf.nodes.any (fun n => n.type == .start)) then
    { events := ev0 ++ [.executionFailed "No start node found in workflow"],
      status := .failed, errorMessage := some "No start node found in workflow",
      outputData := none, finalState := st0 }
  else
    match getExecutionOrder wf with
    | .error e =>
      { events := ev0 ++ [.executionFailed e], status := .failed, errorMessage := some e,
        outputData := none, finalState := st0 }
    | .ok order =>
      let stN := order.enum.foldl (stepNode orc order.length) st0
      let outputData := extractFinalOutputs wf stN.vars stN.nodeOutputs
      { events := stN.events ++ [.executionCompleted outputData], status := .completed,
        errorMessage := none, outputData := some outputData, finalState := stN }

/-- The progress fractions carried by the progress-update events, in order. -/
def progressFractions (evs : List Event) : List ℚ :=
  evs.filterMap (fun e => match e with | .progressUpdate p _ => some p | _ => none)

/-- Recognizer for node-failure events. -/
def isNodeFailedEvent : Event → Bool
  | .nodeFailed _ _ => true
  | _ => false

/-- Recognizer for the workflow-completed event. -/
def isCompletedEvent : Event → Bool
  | .executionCompleted _ => true
  | _ => false

/-- There is an edge from `u` to `v`. -/
def EdgeRel (wf : Workflow) (u v : String) : Prop :=
  ∃ e ∈ wf.edges, e.source = u ∧ e.target = v

/-- The graph has no directed cycle. -/
def Acyclic (wf : Workflow) : Prop := ∀ v, ¬ Relation.TransGen (EdgeRel wf) v v

/-- Both endpoints of every edge name declared nodes (the structural
invariant `Graph Source` guarantees, re-checked decidably). -/
def edgesValidB (wf : Workflow) : Bool :=
  wf.edges.all (fun e =>
    wf.nodes.any (fun n => n.id == e.source) && wf.nodes.any (fun n => n.id == e.target))

/-! ### Specification-side definitions used to state the claims -/

/-- The recognized-output test of the specification: the first of `text`,
`output`, `result` (stringified) that the record exposes. -/
def recognizedOutput (vars : Dict) (p : String × NodeRecord) : Option Value :=
  match dictGet (readOut vars p.2.outputs) "text" with
  | some v => some v
  | none =>
    match dictGet (readOut vars p.2.outputs) "output" with
    | some v => some v
    | none => (dictGet (readOut vars p.2.outputs) "result").map (fun v => .vStr (pyStr v))

/-- The final answer as the specification words it: the recognized output of
the first node-output entry in reverse execution order that has one, or the
empty string. -/
def answerSpecValue (vars : Dict) (outs : List (String × NodeRecord)) : Value :=
  (outs.reverse.findSome? (recognizedOutput vars)).getD (.vStr "")

/-! ### Quantities used by the scheduler's correctness invariants -/

/-- The number of edges into `k` whose source has not yet been emitted. -/
def remIn (wf : Workflow) (res : List String) (k : String) : Nat :=
  wf.edges.countP (fun e => e.target == k && !(res.contains e.source))

/-- The number of edges from `q` to `k` (the multiplicity of `k` among `q`'s
Kahn neighbours). -/
def cntSrc (wf : Workflow) (q k : String) : Nat :=
  wf.edges.countP (fun e => e.source == q && e.target == k)

/-- The invariant maintained by Kahn's `while` loop, relating the stored
in-degrees, the ready queue and the emitted order. -/
structure KahnState (wf : Workflow) (keys : List String) (deg : List (String × Int))
    (queue res : List String) : Prop where
  degKeys : deg.map Prod.fst = keys
  degVal : ∀ k ∈ keys, degGet deg k = some ((remIn wf res k : Int))
  queueKeys : ∀ q ∈ queue, q ∈ keys
  queueNodup : queue.Nodup
  queueZero : ∀ q ∈ queue, remIn wf res q = 0
  queueRes : ∀ q ∈ queue, q ∉ res
  resKeys : ∀ r ∈ res, r ∈ keys
  resNodup : res.Nodup
  resZero : ∀ r ∈ res, remIn wf res r = 0
  zeroCovered : ∀ k ∈ keys, remIn wf res k = 0 → k ∈ queue ∨ k ∈ res
  edgeOrder : ∀ e ∈ wf.edges, e.target ∈ res →
    e.source ∈ res ∧ res.indexOf e.source < res.indexOf e.target

/-- What holds of the order Kahn's loop finally emits. -/
structure KahnFinal (wf : Workflow) (keys : List String) (out : List String) : Prop where
  outKeys : ∀ r ∈ out, r ∈ keys
  outNodup : out.Nodup
  edgeOrder : ∀ e ∈ wf.edges, e.target ∈ out →
    e.source ∈ out ∧ out.indexOf e.source < out.indexOf e.target
  zeroIn : ∀ k ∈ keys, remIn wf out k = 0 → k ∈ out

instance {ε α : Type} [DecidableEq ε] [DecidableEq α] : DecidableEq (Except ε α) := fun x y =>
  match x, y with
  | .ok a, .ok b =>
    if h : a = b then .isTrue (by rw [h]) else .isFalse (by intro hh; cases hh; exact h rfl)
  | .error a, .error b =>
    if h : a = b then .isTrue (by rw [h]) else .isFalse (by intro hh; cases hh; exact h rfl)
  | .ok _, .error _ => .isFalse (by intro hh; cases hh)
  | .error _, .ok _ => .isFalse (by intro hh; cases hh)

/-! ### Concrete fixtures used by counterexamples and witnesses -/

/-- A fixed collaborator assignment: the completion provider answers
`"hello"`, the other effects fail (their outcome is irrelevant below). -/
def orcStub : Oracles where
  llm := fun _ _ => .ok "hello"
  runCode := fun _ _ => .error "no interpreter"
  http := fun _ _ => .error "no network"

/-- A start node. -/
def nodeS : Node := { id := "s", type := .start, data := {} }

/-- An llm node whose config carries no prompt. -/
def nodeL : Node := { id := "l", type := .llm, data := {} }

/-- An llm node with the constant prompt `"Hi"`. -/
def nodeLp : Node := { id := "l", type := .llm, data := { prompt := some "Hi" } }

/-- A template-transform node producing the constant text `"hello"`. -/
def nodeT : Node :=
  { id := "t", type := .templateTransform, data := { template := some "hello" } }

/-- start -> llm-without-prompt -> template: the middle node always fails. -/
def wfFail : Workflow := { nodes := [nodeS, nodeL, nodeT], edges := [⟨"s", "l"⟩, ⟨"l", "t"⟩] }

/-- A start node plus a two-node cycle `a -> b -> a`. -/
def wfCycle : Workflow :=
  { nodes := [nodeS,
      { id := "a", type := .templateTransform, data := { template := some "x" } },
      { id := "b", type := .templateTransform, data := { template := some "y" } }],
    edges := [⟨"a", "b"⟩, ⟨"b", "a"⟩] }

/-- The two-node chain start -> template. -/
def wfPair : Workflow := { nodes := [nodeS, nodeT], edges := [⟨"s", "t"⟩] }

/-- The two-node chain start -> llm-with-prompt. -/
def wfLlm : Workflow := { nodes := [nodeS, nodeLp], edges := [⟨"s", "l"⟩] }

/-- A condition node with a single clause that is false for every variable
assignment (`1 == 2`), combined with the `and` operator. -/
def nodeCond : Node :=
  { id := "c", type := .condition,
    data := { conditions := some [[("expression", .vStr "1 == 2")]],
              logicalOperator := some "and" } }

/-- An answer node. -/
def nodeA : Node := { id := "ans", type := .answer, data := {} }

/-- A small node-output map exercising the answer scan: the newest record
exposes only `result`, an older one exposes `text`. -/
def outsFix : List (String × NodeRecord) :=
  [("n1", { status := "completed", outputs := .lit [("text", .vStr "first")] }),
   ("n2", { status := "completed", outputs := .lit [("result", .vInt 7)] })]

/-! ### C1 -- fail-fast on node failure -/

/-- C1 (code bug): on the run of `wfFail`, the llm node's executor fails,
yet the driver emits no node-failed event, stores the failed record, keeps
iterating -- the downstream template node executes and completes -- and the
run finishes with status completed.  The source's own node-failure branch
(`node_failed` + `break`, lines 94-104) is unreachable because
`_execute_node` catches every exception. -/
theorem run_continues_after_node_failure :
    (executeWorkflow orcStub wfFail []).status = ExecutionStatus.completed ∧
    (executeWorkflow orcStub wfFail []).events.all (fun e => !isNodeFailedEvent e) = true ∧
    (outsGet (executeWorkflow orcStub wfFail []).finalState.nodeOutputs "l").map
      NodeRecord.status = some "failed" ∧
    (outsGet (executeWorkflow orcStub wfFail []).finalState.nodeOutputs "t").map
      NodeRecord.status = some "completed" := by
  decide

/-! ### C2 -- cyclic graphs are not rejected -/

/-- C2 counterexample: `wfCycle` contains the cycle `a -> b -> a`, yet the
scheduler returns successfully (the order silently omits `a` and `b`), the
start node executes, and the run completes instead of failing. -/
theorem cyclic_graph_runs_to_completion :
    getExecutionOrder wfCycle = .ok [nodeS] ∧
    (executeWorkflow orcStub wfCycle []).status = ExecutionStatus.completed ∧
    (executeWorkflow orcStub wfCycle []).errorMessage = none ∧
    (outsGet (executeWorkflow orcStub wfCycle []).finalState.nodeOutputs "s").isSome = true := by
  decide

/-! ### C4 -- the stored start record is mutated by later merges -/

/-- C4 counterexample: in the run of `wfPair` the stored record for the
start node aliases the variable scope.  Read right after it is stored the
entry has no `t.output` key; read after the template node's outputs are
merged into the scope, the same stored entry now contains `t.output`. -/
theorem start_record_mutated_by_later_node :
    (outsGet (executeWorkflow orcStub wfPair [("q", Value.vStr "hi")]).finalState.nodeOutputs
        "s").map
      (fun recd =>
        dictGet
          (readOut (executeWorkflow orcStub wfPair [("q", Value.vStr "hi")]).finalState.vars
            recd.outputs) "t.output") = some (some (Value.vStr "hello")) ∧
    (outsGet (stepNode orcStub 2 ⟨[("q", Value.vStr "hi")], [], [], []⟩ (0, nodeS)).nodeOutputs
        "s").map
      (fun recd =>
        dictGet
          (readOut (stepNode orcStub 2 ⟨[("q", Value.vStr "hi")], [], [], []⟩ (0, nodeS)).vars
            recd.outputs) "t.output") = some none := by
  decide

/-! ### C5 -- condition clauses are placeholders -/

/-- C5 counterexample: a condition node with the single clause `1 == 2`
(false for every variable assignment) under `and` still produces the result
`True`: clause expressions are never evaluated. -/
theorem false_clause_condition_yields_true :
    (executeNode orcStub nodeCond [] []).status = "completed" ∧
    dictGet (readOut [] (executeNode orcStub nodeCond [] []).outputs) "result" =
      some (Value.vBool true) := by
  decide

/-- C5 amended: condition clauses are not evaluated at all -- each clause
yields the placeholder value `True`, so after combining with either
configured operator the node's `result` output is `True` for every clause
list, operator and variable assignment, and no malformed-expression handling
exists on this path. -/
theorem condition_result_always_true (orc : Oracles) (node : Node) (vars : Dict)
    (outs : List (String × NodeRecord)) (h : node.type = NodeType.condition) :
    dictGet (readOut vars (executeNode orc node vars outs).outputs) "result" =
      some (Value.vBool true) := by
  unfold executeNode executeNodeInner
  rw [h]
  rcases hc : node.data.conditions with _ | l
  · simp [dictGet, readOut, List.find?]
  · rcases l with _ | ⟨a, as⟩
    · simp [dictGet, readOut, List.find?]
    · have hall : (((a :: as).map (fun _ => true)).all id) = true := by
        simp [List.all_eq_true]
      have hany : (((a :: as).map (fun _ => true)).any id) = true := by
        simp [List.any_eq_true]
      rcases hop : (pyOr node.data.logicalOperator "and" == "and") with _ | _ <;>
        simp [hop, hall, hany, dictGet, readOut, List.find?]

/-- Witness for `condition_result_always_true` at the concrete fixture. -/
theorem condition_result_always_true_witness :
    dictGet (readOut [] (executeNode orcStub nodeCond [] []).outputs) "result" =
      some (Value.vBool true) :=
  condition_result_always_true orcStub nodeCond [] [] rfl

/-! ### C6 -- leniency and identity of the variable resolver -/

theorem asString_toList (s : String) : s.toList.asString = s := rfl

/-- C6 counterexample: unresolvable placeholders are not always left
verbatim.  In the template `\x7b\x7bx\x7b\x7br\x7d\x7d \x7b\x7br\x7d\x7d`
with `r` bound to `V`, the capture `x\x7b\x7br` is unresolvable (and its
token `\x7b\x7bx\x7b\x7br\x7d\x7d` stands verbatim in the input), yet the
textual replacement of the resolvable `\x7b\x7br\x7d\x7d` rewrites the text
inside it: the output is `\x7b\x7bxV V`, in which the unresolved token no
longer occurs. -/
theorem resolved_replacement_destroys_unresolved_token :
    resolveName (pyStrip ('x' :: '\x7b' :: '\x7b' :: 'r' :: []))
      [("r", Value.vStr "V")] [] = none ∧
    ('x' :: '\x7b' :: '\x7b' :: 'r' :: []) ∈
      findAll ("\x7b\x7bx\x7b\x7br\x7d\x7d \x7b\x7br\x7d\x7d" : String).toList ∧
    List.IsInfix
      ('\x7b' :: '\x7b' :: 'x' :: '\x7b' :: '\x7b' :: 'r' :: '\x7d' :: '\x7d' :: [])
      (("\x7b\x7bx\x7b\x7br\x7d\x7d \x7b\x7br\x7d\x7d" : String).toList) ∧
    replaceVariables "\x7b\x7bx\x7b\x7br\x7d\x7d \x7b\x7br\x7d\x7d"
      [("r", Value.vStr "V")] [] = "\x7b\x7bxV V" ∧
    ¬ List.IsInfix
      ('\x7b' :: '\x7b' :: 'x' :: '\x7b' :: '\x7b' :: 'r' :: '\x7d' :: '\x7d' :: [])
      (("\x7b\x7bxV V" : String).toList) := by
  decide

theorem foldl_applyMatch_none (vars : Dict) (outs : List (String × NodeRecord)) :
    ∀ (ms : List (List Char)) (init : List Char),
      (∀ m ∈ ms, resolveName (pyStrip m) vars outs = none) →
      ms.foldl (applyMatch vars outs) init = init := by
  intro ms
  induction ms with
  | nil => intro init _; rfl
  | cons m rest ih =>
    intro init h
    have hm : resolveName (pyStrip m) vars outs = none := h m (by simp)
    have hstep : applyMatch vars outs init m = init := by
      simp only [applyMatch, hm]
    rw [List.foldl_cons, hstep]
    exact ih init (fun x hx => h x (by simp [hx]))

/-- C6 amended: the resolver is lenient -- an unresolvable capture raises no
error and triggers no replacement step of its own -- so a template whose
placeholders are all unresolvable comes back verbatim, and in particular a
template with no placeholders at all is returned unchanged.  Verbatim
preservation of an unresolved token cannot be promised beyond that regime:
replacement is textual over the evolving result, so substituting a
resolvable placeholder may rewrite the text of an unresolvable one (see the
counterexample above). -/
theorem replace_variables_lenient_identity (text : String) (vars : Dict)
    (outs : List (String × NodeRecord)) :
    ((∀ m ∈ findAll text.toList, resolveName (pyStrip m) vars outs = none) →
      replaceVariables text vars outs = text) ∧
    (findAll text.toList = [] → replaceVariables text vars outs = text) := by
  constructor
  · intro h
    unfold replaceVariables
    rw [foldl_applyMatch_none vars outs _ _ h, asString_toList]
  · intro h
    unfold replaceVariables
    rw [h, List.foldl_nil, asString_toList]

/-- Witness for `replace_variables_lenient_identity`: a template whose one
placeholder resolves nowhere comes back verbatim. -/
theorem replace_variables_lenient_identity_witness :
    replaceVariables "hello \x7b\x7bmissing\x7d\x7d world" [] [] =
      "hello \x7b\x7bmissing\x7d\x7d world" :=
  (replace_variables_lenient_identity "hello \x7b\x7bmissing\x7d\x7d world" [] []).1
    (by decide)

/-! ### C8 -- the answer node's reverse priority scan -/

theorem leadsWith_length {o s : List Char} (h : leadsWith o s = true) :
    o.length ≤ s.length := by
  induction o generalizing s with
  | nil => simp
  | cons a as ih =>
    cases s with
    | nil => simp [leadsWith] at h
    | cons b bs =>
      simp only [leadsWith, Bool.and_eq_true] at h
      simpa using ih h.2

theorem answerScanRev_eq_findSome (vars : Dict) :
    ∀ l : List (String × NodeRecord),
      answerScanRev vars l = (l.findSome? (recognizedOutput vars)).getD (.vStr "") := by
  intro l
  induction l with
  | nil => rfl
  | cons p rest ih =>
    obtain ⟨nid, recd⟩ := p
    simp only [answerScanRev, List.findSome?]
    rcases h1 : dictGet (readOut vars recd.outputs) "text" with _ | v
    · rcases h2 : dictGet (readOut vars recd.outputs) "output" with _ | v
      · rcases h3 : dictGet (readOut vars recd.outputs) "result" with _ | v
        · simpa [recognizedOutput, h1, h2, h3] using ih
        · simp [recognizedOutput, h1, h2, h3]
      · simp [recognizedOutput, h1, h2]
    · simp [recognizedOutput, h1]

/-- C8: for every state of the variable scope and of the node-output map,
the answer-node executor scans the node-output map in reverse execution
order, returns the first recognized output field found with per-record
priority `text`, then `output`, then `result`, and returns the empty string
when no record exposes any of the three. -/
theorem answer_node_scans_reverse_with_priority (orc : Oracles) (node : Node) (vars : Dict)
    (outs : List (String × NodeRecord)) (h : node.type = NodeType.answer) :
    executeNode orc node vars outs =
      { status := "completed", error := none,
        outputs := .lit [("answer", answerSpecValue vars outs),
                         ("final_output", answerSpecValue vars outs)],
        logs := ["Final answer prepared"] } := by
  unfold executeNode executeNodeInner
  rw [h]
  simp [executeAnswerNode, answerSpecValue, answerScanRev_eq_findSome]

/-- Witness for `answer_node_scans_reverse_with_priority` at a map whose
newest record exposes only `result` while an older one exposes `text`. -/
theorem answer_node_scans_reverse_with_priority_witness :
    executeNode orcStub nodeA [] outsFix =
      { status := "completed", error := none,
        outputs := .lit [("answer", answerSpecValue [] outsFix),
                         ("final_output", answerSpecValue [] outsFix)],
        logs := ["Final answer prepared"] } :=
  answer_node_scans_reverse_with_priority orcStub nodeA [] outsFix rfl

/-! ### C10 -- which fraction is emitted, and when 1.0 appears -/

/-- C10 counterexample: on the two-node run of `wfPair` the first emitted
progress fraction is `1/2`, not `0/2 = 0` as the claim's `i/N` (0-based)
demands; and the fraction `1.0` is emitted at event position 3, before the
final node's completion at position 4 -- not after the loop finishes. -/
theorem progress_fraction_offset_counterexample :
    (progressFractions (executeWorkflow orcStub wfPair []).events).head? = some (1/2) ∧
    ((1 : ℚ)/2 ≠ 0) ∧
    (executeWorkflow orcStub wfPair []).events.get? 3 =
      some (.progressUpdate 1 "t") ∧
    (∃ recd, (executeWorkflow orcStub wfPair []).events.get? 4 =
      some (.nodeCompleted "t" recd)) := by
  have hev : (executeWorkflow orcStub wfPair []).events =
      [.executionStarted 2,
       .progressUpdate ((((0 : ℕ) : ℚ) + 1) / ((2 : ℕ) : ℚ)) "s",
       .nodeCompleted "s"
         { status := "completed", error := none, outputs := .varsAlias,
           logs := ["Workflow started with input variables"] },
       .progressUpdate ((((1 : ℕ) : ℚ) + 1) / ((2 : ℕ) : ℚ)) "t",
       .nodeCompleted "t"
         { status := "completed", error := none,
           outputs := .lit [("output", .vStr "hello"), ("t.output", .vStr "hello")],
           logs := ["Template processed"] },
       .executionCompleted [("output", .vStr "hello"), ("t.output", .vStr "hello")]] := rfl
  rw [hev]
  refine ⟨?_, by norm_num, ?_, ?_⟩
  · norm_num [progressFractions]
  · norm_num
  · exact ⟨_, rfl⟩

/-! ### Scheduler correctness: utility lemmas -/

theorem contains_iff_mem {l : List String} {a : String} : l.contains a = true ↔ a ∈ l := by
  simp [List.contains, List.elem_iff]

theorem contains_eq_decide (l : List String) (a : String) :
    l.contains a = decide (a ∈ l) := by
  by_cases h : a ∈ l <;> simp [List.contains, List.elem_iff, h]

theorem dedupAux_mem : ∀ (l seen : List String) (x : String),
    x ∈ dedupAux l seen ↔ x ∈ l ∧ x ∉ seen := by
  intro l
  induction l with
  | nil => simp [dedupAux]
  | cons k rest ih =>
    intro seen x
    by_cases hk : k ∈ seen
    · simp only [dedupAux, hk, if_true, ih, List.mem_cons]
      constructor
      · rintro ⟨hx, hxs⟩
        exact ⟨Or.inr hx, hxs⟩
      · rintro ⟨rfl | hx', hxs⟩
        · exact absurd hk hxs
        · exact ⟨hx', hxs⟩
    · simp only [dedupAux, hk, if_false, List.mem_cons, ih]
      constructor
      · rintro (rfl | ⟨hx, hxs⟩)
        · exact ⟨by simp, hk⟩
        · refine ⟨by simp [hx], fun hs => hxs (by simp [hs])⟩
      · rintro ⟨hx, hxs⟩
        by_cases hxk : x = k
        · exact Or.inl hxk
        · rcases hx with rfl | hx'
          · exact absurd rfl hxk
          · refine Or.inr ⟨hx', fun hs => ?_⟩
            rcases List.mem_append.mp hs with hs' | hs'
            · exact hxs hs'
            · simp at hs'
              exact hxk hs'

theorem dedupAux_nodup : ∀ (l seen : List String), (dedupAux l seen).Nodup := by
  intro l
  induction l with
  | nil => intro seen; simp [dedupAux]
  | cons k rest ih =>
    intro seen
    by_cases hk : k ∈ seen
    · simpa [dedupAux, hk] using ih seen
    · simp only [dedupAux, hk, if_false]
      refine List.nodup_cons.mpr ⟨fun hmem => ?_, ih _⟩
      have := (dedupAux_mem rest (seen ++ [k]) k).mp hmem
      exact this.2 (by simp)

theorem dedupKeys_mem {l : List String} {x : String} : x ∈ dedupKeys l ↔ x ∈ l := by
  unfold dedupKeys
  rw [dedupAux_mem]
  simp

theorem dedupKeys_nodup (l : List String) : (dedupKeys l).Nodup := dedupAux_nodup l []

theorem dedupAux_eq_self : ∀ (l seen : List String), l.Nodup → (∀ x ∈ l, x ∉ seen) →
    dedupAux l seen = l := by
  intro l
  induction l with
  | nil => intro seen _ _; rfl
  | cons k rest ih =>
    intro seen hnd hdisj
    have hk : k ∉ seen := hdisj k (by simp)
    simp only [dedupAux, hk, if_false]
    rw [ih (seen ++ [k]) (List.nodup_cons.mp hnd).2]
    intro x hx
    intro hmem
    rcases List.mem_append.mp hmem with h' | h'
    · exact hdisj x (by simp [hx]) h'
    · simp at h'
      subst h'
      exact (List.nodup_cons.mp hnd).1 hx

theorem dedupKeys_eq_self {l : List String} (h : l.Nodup) : dedupKeys l = l :=
  dedupAux_eq_self l [] h (by simp)

theorem countP_split {α : Type} (l : List α) (p q : α → Bool) :
    l.countP p = l.countP (fun a => p a && q a) + l.countP (fun a => p a && !q a) := by
  induction l with
  | nil => simp
  | cons a rest ih =>
    rcases hp : p a with _ | _ <;> rcases hq : q a with _ | _ <;>
      simp [List.countP_cons, hp, hq, ih] <;> omega

theorem mem_of_degGet_eq_some {deg : List (String × Int)} {k : String} {v : Int}
    (h : degGet deg k = some v) : (k, v) ∈ deg := by
  unfold degGet at h
  rcases hf : deg.find? (fun p => p.1 == k) with _ | p
  · rw [hf] at h; simp at h
  · rw [hf] at h
    simp only [Option.map_some', Option.some.injEq] at h
    have hm := List.mem_of_find?_eq_some hf
    have hp : p.1 = k := by simpa using List.find?_some hf
    obtain ⟨a, b⟩ := p
    simp only at hp h
    subst hp; subst h
    exact hm

theorem degGet_eq_some_of_mem {deg : List (String × Int)} {k : String} {v : Int}
    (hnd : (deg.map Prod.fst).Nodup) (hmem : (k, v) ∈ deg) : degGet deg k = some v := by
  induction deg with
  | nil => simp at hmem
  | cons p rest ih =>
    obtain ⟨a, b⟩ := p
    simp only [List.map_cons, List.nodup_cons] at hnd
    rcases List.mem_cons.mp hmem with heq | hmem'
    · obtain ⟨rfl, rfl⟩ : k = a ∧ v = b := by
        simpa [Prod.ext_iff] using heq
      simp [degGet, List.find?]
    · have hak : a ≠ k := by
        rintro rfl
        exact hnd.1 (List.mem_map.mpr ⟨(a, v), hmem', rfl⟩)
      have : (a == k) = false := by simpa using hak
      simp only [degGet, List.find?, this]
      exact ih hnd.2 hmem'

theorem degGet_isSome_iff {deg : List (String × Int)} {k : String} :
    (degGet deg k).isSome = true ↔ k ∈ deg.map Prod.fst := by
  unfold degGet
  rcases hf : deg.find? (fun p => p.1 == k) with _ | p
  · rw [hf]
    simp only [Option.map_none', Option.isSome_none, Bool.false_eq_true, false_iff]
    intro hmem
    rcases List.mem_map.mp hmem with ⟨q, hq, hq1⟩
    have := List.find?_eq_none.mp hf q hq
    simp [hq1] at this
  · rw [hf]
    simp only [Option.map_some', Option.isSome_some, true_iff]
    have hm := List.mem_of_find?_eq_some hf
    have hp : p.1 = k := by simpa using List.find?_some hf
    exact hp ▸ List.mem_map.mpr ⟨p, hm, rfl⟩

theorem any_fst_iff {deg : List (String × Int)} {k : String} :
    (deg.any (fun p => p.1 == k)) = true ↔ k ∈ deg.map Prod.fst := by
  rw [List.any_eq_true]
  constructor
  · rintro ⟨p, hp, hpk⟩
    have : p.1 = k := by simpa using hpk
    exact this ▸ List.mem_map.mpr ⟨p, hp, rfl⟩
  · intro hmem
    rcases List.mem_map.mp hmem with ⟨p, hp, hp1⟩
    exact ⟨p, hp, by simp [hp1]⟩

theorem map_fst_decrDeg (deg : List (String × Int)) (k : String) :
    (decrDeg deg k).map Prod.fst = deg.map Prod.fst := by
  unfold decrDeg
  rw [List.map_map]
  apply List.map_congr_left
  intro p _
  by_cases h : p.1 = k <;> simp [h]

theorem map_fst_incrDeg (deg : List (String × Int)) (k : String) :
    (incrDeg deg k).map Prod.fst = deg.map Prod.fst := by
  unfold incrDeg
  rw [List.map_map]
  apply List.map_congr_left
  intro p _
  by_cases h : p.1 = k <;> simp [h]

theorem degGet_cons (a : String) (b : Int) (rest : List (String × Int)) (k : String) :
    degGet ((a, b) :: rest) k = if a = k then some b else degGet rest k := by
  simp only [degGet, List.find?_cons]
  by_cases h : a = k
  · subst h
    simp
  · have hb : ((a, b).1 == k) = false := by simpa using h
    rw [hb]
    simp [h, degGet]

theorem decrDeg_cons (a : String) (b : Int) (rest : List (String × Int)) (k : String) :
    decrDeg ((a, b) :: rest) k =
      (if a = k then (a, b - 1) else (a, b)) :: decrDeg rest k := by
  by_cases h : a = k <;> simp [decrDeg, h]

theorem incrDeg_cons (a : String) (b : Int) (rest : List (String × Int)) (k : String) :
    incrDeg ((a, b) :: rest) k =
      (if a = k then (a, b + 1) else (a, b)) :: incrDeg rest k := by
  by_cases h : a = k <;> simp [incrDeg, h]

theorem degGet_decrDeg (deg : List (String × Int)) (k k' : String) :
    degGet (decrDeg deg k) k' = (degGet deg k').map (fun v => if k' = k then v - 1 else v) := by
  induction deg with
  | nil => rfl
  | cons p rest ih =>
    obtain ⟨a, b⟩ := p
    rw [decrDeg_cons]
    by_cases h1 : a = k
    · subst h1
      rw [if_pos rfl, degGet_cons, degGet_cons]
      by_cases h2 : a = k'
      · subst h2
        simp
      · simp [h2, ih]
    · rw [if_neg h1, degGet_cons, degGet_cons]
      by_cases h2 : a = k'
      · subst h2
        have hkk : ¬(a = k) := h1
        simp [hkk]
      · simp [h2, ih]

theorem processNeighbors_spec (keys : List String) :
    ∀ (ns : List String) (deg : List (String × Int)) (queue : List String)
      (c : String → Int),
      deg.map Prod.fst = keys →
      (∀ k ∈ keys, degGet deg k = some (c k)) →
      (∀ n ∈ ns, n ∈ keys) →
      (∀ k ∈ keys, (ns.count k : Int) ≤ c k) →
      ∃ newly : List String,
        (processNeighbors deg queue ns).1.map Prod.fst = keys ∧
        (∀ k ∈ keys, degGet (processNeighbors deg queue ns).1 k =
          some (c k - (ns.count k : Int))) ∧
        (processNeighbors deg queue ns).2 = queue ++ newly ∧
        newly.Nodup ∧
        (∀ k, k ∈ newly ↔ k ∈ ns ∧ c k = (ns.count k : Int) ∧ 1 ≤ ns.count k) := by
  intro ns
  induction ns with
  | nil =>
    intro deg queue c hfst hdeg _ _
    refine ⟨[], hfst, ?_, by simp [processNeighbors], by simp, by simp⟩
    intro k hk
    simpa using hdeg k hk
  | cons n ns' ih =>
    intro deg queue c hfst hdeg hns hcnt
    have hn : n ∈ keys := hns n (by simp)
    have hdg1n : degGet (decrDeg deg n) n = some (c n - 1) := by
      rw [degGet_decrDeg, hdeg n hn]
      simp
    have hdeg1 : ∀ k ∈ keys, degGet (decrDeg deg n) k =
        some (if k = n then c k - 1 else c k) := by
      intro k hk
      rw [degGet_decrDeg, hdeg k hk]
      by_cases h : k = n <;> simp [h]
    have hfst1 : (decrDeg deg n).map Prod.fst = keys := by
      rw [map_fst_decrDeg]; exact hfst
    have hcnt1 : ∀ k ∈ keys, ((ns'.count k : Int)) ≤ (if k = n then c k - 1 else c k) := by
      intro k hk
      by_cases h : k = n
      · subst h
        have := hcnt k hk
        rw [List.count_cons_self] at this
        push_cast at this ⊢
        simp only [if_pos rfl]
        omega
      · have := hcnt k hk
        rw [List.count_cons_of_ne h] at this
        simpa [h] using this
    have hstep : processNeighbors deg queue (n :: ns') =
        processNeighbors (decrDeg deg n)
          (if degGet (decrDeg deg n) n == some 0 then queue ++ [n] else queue) ns' := rfl
    by_cases hcn : c n = 1
    · have hcond : (degGet (decrDeg deg n) n == some 0) = true := by
        rw [hdg1n, hcn]
        simp
      have hq1 : (if degGet (decrDeg deg n) n == some 0 then queue ++ [n] else queue) =
          queue ++ [n] := by rw [hcond]; simp
      rw [hstep, hq1]
      obtain ⟨newly', hf2, hd2, hq2, hnd2, hiff2⟩ :=
        ih (decrDeg deg n) (queue ++ [n]) (fun k => if k = n then c k - 1 else c k)
          hfst1 hdeg1 (fun x hx => hns x (by simp [hx])) hcnt1
      have hcn0 : ns'.count n = 0 := by
        have := hcnt n hn
        rw [List.count_cons_self, hcn] at this
        push_cast at this
        omega
      have hnnotin : n ∉ newly' := by
        intro hmem
        rcases (hiff2 n).mp hmem with ⟨_, _, hge⟩
        omega
      refine ⟨n :: newly', hf2, ?_, ?_, ?_, ?_⟩
      · intro k hk
        rw [hd2 k hk]
        by_cases h : k = n
        · subst h
          rw [List.count_cons_self]
          simp only [if_pos rfl, Option.some.injEq]
          push_cast
          omega
        · rw [List.count_cons_of_ne h]
          simp [if_neg h]
      · rw [hq2, List.append_assoc]
        rfl
      · exact List.nodup_cons.mpr ⟨hnnotin, hnd2⟩
      · intro k
        by_cases h : k = n
        · subst h
          constructor
          · intro _
            refine ⟨by simp, ?_, ?_⟩
            · rw [List.count_cons_self, hcn0, hcn]
              norm_num
            · rw [List.count_cons_self, hcn0]
          · intro _
            exact List.mem_cons_self _ _
        · have hmc : (k ∈ n :: newly') ↔ k ∈ newly' := by
            simp [List.mem_cons, h]
          rw [hmc, hiff2 k, if_neg h, List.count_cons_of_ne h]
          simp [List.mem_cons, h]
    · have hcond : (degGet (decrDeg deg n) n == some 0) = false := by
        rw [hdg1n]
        have : ¬(c n - 1 = 0) := by omega
        simpa using this
      have hq1 : (if degGet (decrDeg deg n) n == some 0 then queue ++ [n] else queue) =
          queue := by rw [hcond]; simp
      rw [hstep, hq1]
      obtain ⟨newly', hf2, hd2, hq2, hnd2, hiff2⟩ :=
        ih (decrDeg deg n) queue (fun k => if k = n then c k - 1 else c k)
          hfst1 hdeg1 (fun x hx => hns x (by simp [hx])) hcnt1
      refine ⟨newly', hf2, ?_, hq2, hnd2, ?_⟩
      · intro k hk
        rw [hd2 k hk]
        by_cases h : k = n
        · subst h
          rw [List.count_cons_self]
          simp only [if_pos rfl, Option.some.injEq]
          push_cast
          omega
        · rw [List.count_cons_of_ne h]
          simp [if_neg h]
      · intro k
        rw [hiff2 k]
        by_cases h : k = n
        · subst h
          rw [List.count_cons_self]
          constructor
          · rintro ⟨hmem, heq, hge⟩
            rw [if_pos rfl] at heq
            refine ⟨List.mem_cons_self _ _, ?_, by omega⟩
            push_cast
            omega
          · rintro ⟨_, heq, _⟩
            push_cast at heq
            have hpos : 0 < ns'.count k := by omega
            refine ⟨List.count_pos_iff.mp hpos, ?_, hpos⟩
            rw [if_pos rfl]
            omega
        · rw [List.count_cons_of_ne h, if_neg h]
          simp [List.mem_cons, h]

theorem remIn_append_q (wf : Workflow) (res : List String) (q : String) (hq : q ∉ res)
    (k : String) :
    remIn wf res k = cntSrc wf q k + remIn wf (res ++ [q]) k := by
  unfold remIn cntSrc
  rw [countP_split wf.edges (fun e => e.target == k && !(res.contains e.source))
    (fun e => e.source == q)]
  congr 1
  · apply List.countP_congr
    intro e _
    by_cases ht : e.target = k <;> by_cases hs : e.source = q <;>
      simp [ht, hs, contains_eq_decide, hq]
  · apply List.countP_congr
    intro e _
    by_cases ht : e.target = k <;> by_cases hs : e.source = q <;>
      by_cases hr : e.source ∈ res <;>
        simp [ht, hs, hr, contains_eq_decide, List.mem_append]

theorem cntSrc_le_remIn (wf : Workflow) (res : List String) (q : String) (hq : q ∉ res)
    (k : String) : cntSrc wf q k ≤ remIn wf res k := by
  rw [remIn_append_q wf res q hq k]
  omega

theorem remIn_append_le (wf : Workflow) (res ext : List String) (k : String) :
    remIn wf (res ++ ext) k ≤ remIn wf res k := by
  unfold remIn
  apply List.countP_mono_left
  intro e _ h
  simp only [Bool.and_eq_true, contains_eq_decide, Bool.not_eq_true',
    decide_eq_false_iff_not, List.mem_append] at h ⊢
  exact ⟨h.1, fun hm => h.2 (Or.inl hm)⟩

theorem nodup_length_le {l keys : List String} (hnd : l.Nodup) (hsub : ∀ x ∈ l, x ∈ keys)
    (hknd : keys.Nodup) : l.length ≤ keys.length := by
  classical
  have h1 : l.toFinset.card = l.length := List.toFinset_card_of_nodup hnd
  have h2 : keys.toFinset.card = keys.length := List.toFinset_card_of_nodup hknd
  have hsub' : l.toFinset ⊆ keys.toFinset := by
    intro x hx
    rw [List.mem_toFinset] at hx ⊢
    exact hsub x hx
  calc l.length = l.toFinset.card := h1.symm
    _ ≤ keys.toFinset.card := Finset.card_le_card hsub'
    _ = keys.length := h2

theorem count_adjOf (wf : Workflow) (q k : String) :
    (adjOf wf q).count k = cntSrc wf q k := by
  show List.count k (adjOf wf q) = cntSrc wf q k
  unfold adjOf cntSrc
  rw [show List.count k = List.countP (fun x => x == k) from rfl]
  rw [List.countP_map, List.countP_filter]
  apply List.countP_congr
  intro e _
  by_cases ht : e.target = k <;> by_cases hs : e.source = q <;>
    simp [ht, hs, Function.comp]

theorem degGet_incrDeg (deg : List (String × Int)) (k k' : String) :
    degGet (incrDeg deg k) k' = (degGet deg k').map (fun v => if k' = k then v + 1 else v) := by
  induction deg with
  | nil => rfl
  | cons p rest ih =>
    obtain ⟨a, b⟩ := p
    rw [incrDeg_cons]
    by_cases h1 : a = k
    · subst h1
      rw [if_pos rfl, degGet_cons, degGet_cons]
      by_cases h2 : a = k'
      · subst h2
        simp
      · simp [h2, ih]
    · rw [if_neg h1, degGet_cons, degGet_cons]
      by_cases h2 : a = k'
      · subst h2
        have hkk : ¬(a = k) := h1
        simp [hkk]
      · simp [h2, ih]

theorem kahnLoop_spec (wf : Workflow) (keys : List String) (hknd : keys.Nodup)
    (hsrc : ∀ e ∈ wf.edges, e.source ∈ keys ∧ e.target ∈ keys) :
    ∀ (fuel : Nat) (deg : List (String × Int)) (queue res : List String),
      KahnState wf keys deg queue res →
      keys.length + 1 ≤ fuel + res.length →
      ∃ tail, kahnLoop wf fuel deg queue res = res ++ tail ∧
        KahnFinal wf keys (res ++ tail) := by
  intro fuel
  induction fuel with
  | zero =>
    intro deg queue res hst hbound
    exfalso
    have := nodup_length_le hst.resNodup hst.resKeys hknd
    omega
  | succ fuel ih =>
    intro deg queue res hst hbound
    cases queue with
    | nil =>
      refine ⟨[], by simp [kahnLoop], ?_⟩
      rw [List.append_nil]
      exact ⟨hst.resKeys, hst.resNodup, hst.edgeOrder, fun k hk h0 =>
        (hst.zeroCovered k hk h0).elim (fun hq => absurd hq (by simp)) id⟩
    | cons q rest =>
      have hqk : q ∈ keys := hst.queueKeys q (by simp)
      have hq0 : remIn wf res q = 0 := hst.queueZero q (by simp)
      have hqr : q ∉ res := hst.queueRes q (by simp)
      have hqnotrest : q ∉ rest := (List.nodup_cons.mp hst.queueNodup).1
      have hrestnd : rest.Nodup := (List.nodup_cons.mp hst.queueNodup).2
      have hnsk : ∀ n ∈ adjOf wf q, n ∈ keys := by
        intro n hn
        unfold adjOf at hn
        rcases List.mem_map.mp hn with ⟨e, he, rfl⟩
        exact (hsrc e (List.mem_of_mem_filter he)).2
      have hcnt : ∀ k ∈ keys, ((adjOf wf q).count k : Int) ≤ ((remIn wf res k : Nat) : Int) := by
        intro k _
        rw [count_adjOf]
        exact_mod_cast cntSrc_le_remIn wf res q hqr k
      obtain ⟨newly, hf2, hd2, hq2, hnd2, hiff2⟩ :=
        processNeighbors_spec keys (adjOf wf q) deg rest
          (fun k => ((remIn wf res k : Nat) : Int))
          hst.degKeys (fun k hk => hst.degVal k hk) hnsk hcnt
      have hrem : ∀ k, remIn wf (res ++ [q]) k + cntSrc wf q k = remIn wf res k := by
        intro k
        have := remIn_append_q wf res q hqr k
        omega
      have hcle : ∀ k, cntSrc wf q k ≤ remIn wf res k := fun k =>
        cntSrc_le_remIn wf res q hqr k
      -- membership in `newly` in terms of the next remaining in-degree
      have hnewly : ∀ k, k ∈ newly ↔
          k ∈ adjOf wf q ∧ remIn wf res k = cntSrc wf q k ∧ 1 ≤ cntSrc wf q k := by
        intro k
        rw [hiff2 k, count_adjOf]
        constructor
        · rintro ⟨h1, h2, h3⟩
          exact ⟨h1, by exact_mod_cast h2, h3⟩
        · rintro ⟨h1, h2, h3⟩
          exact ⟨h1, by exact_mod_cast h2, h3⟩
      have hnewlyPos : ∀ k ∈ newly, 1 ≤ remIn wf res k := by
        intro k hk
        rcases (hnewly k).mp hk with ⟨_, h2, h3⟩
        omega
      have hnewlyNext : ∀ k ∈ newly, remIn wf (res ++ [q]) k = 0 := by
        intro k hk
        rcases (hnewly k).mp hk with ⟨_, h2, _⟩
        have := hrem k
        omega
      have hnextle : ∀ k, remIn wf (res ++ [q]) k ≤ remIn wf res k :=
        fun k => remIn_append_le wf res [q] k
      have hstate : KahnState wf keys (processNeighbors deg rest (adjOf wf q)).1
          (processNeighbors deg rest (adjOf wf q)).2 (res ++ [q]) := by
        refine ⟨hf2, ?_, ?_, ?_, ?_, ?_, ?_, ?_, ?_, ?_, ?_⟩
        · -- degVal
          intro k hk
          rw [hd2 k hk, count_adjOf]
          congr 1
          have h1 := hcle k
          have h2 := hrem k
          omega
        · -- queueKeys
          intro x hx
          rw [hq2] at hx
          rcases List.mem_append.mp hx with hx' | hx'
          · exact hst.queueKeys x (by simp [hx'])
          · rcases (hnewly x).mp hx' with ⟨h1, _, _⟩
            exact hnsk x h1
        · -- queueNodup
          rw [hq2]
          refine List.Nodup.append hrestnd hnd2 ?_
          intro x hx hx'
          have h0 : remIn wf res x = 0 := hst.queueZero x (by simp [hx])
          have h1 := hnewlyPos x hx'
          omega
        · -- queueZero
          intro x hx
          rw [hq2] at hx
          rcases List.mem_append.mp hx with hx' | hx'
          · have h0 : remIn wf res x = 0 := hst.queueZero x (by simp [hx'])
            have := hnextle x
            omega
          · exact hnewlyNext x hx'
        · -- queueRes
          intro x hx
          rw [hq2] at hx
          intro hmem
          rcases List.mem_append.mp hmem with hm | hm
          · rcases List.mem_append.mp hx with hx' | hx'
            · exact hst.queueRes x (by simp [hx']) hm
            · have h1 := hnewlyPos x hx'
              have h0 := hst.resZero x hm
              omega
          · simp only [List.mem_singleton] at hm
            subst hm
            rcases List.mem_append.mp hx with hx' | hx'
            · exact hqnotrest hx'
            · have h1 := hnewlyPos x hx'
              omega
        · -- resKeys
          intro r hr
          rcases List.mem_append.mp hr with hr' | hr'
          · exact hst.resKeys r hr'
          · simp only [List.mem_singleton] at hr'
            subst hr'
            exact hqk
        · -- resNodup
          exact List.Nodup.append hst.resNodup (by simp) (by
            intro x hx hx'
            simp only [List.mem_singleton] at hx'
            subst hx'
            exact hqr hx)
        · -- resZero
          intro r hr
          rcases List.mem_append.mp hr with hr' | hr'
          · have := hst.resZero r hr'
            have := hnextle r
            omega
          · simp only [List.mem_singleton] at hr'
            subst hr'
            have := hnextle r
            omega
        · -- zeroCovered
          intro k hk h0
          by_cases hz : remIn wf res k = 0
          · rcases hst.zeroCovered k hk hz with hq' | hr'
            · rcases List.mem_cons.mp hq' with rfl | hrest
              · exact Or.inr (by simp)
              · exact Or.inl (by rw [hq2]; exact List.mem_append.mpr (Or.inl hrest))
            · exact Or.inr (List.mem_append.mpr (Or.inl hr'))
          · have h1 : 1 ≤ remIn wf res k := by omega
            have h2 := hrem k
            have hc1 : remIn wf res k = cntSrc wf q k := by omega
            have hc2 : 1 ≤ cntSrc wf q k := by omega
            have hmemadj : k ∈ adjOf wf q := by
              have : 0 < (adjOf wf q).count k := by
                rw [count_adjOf]
                omega
              exact List.count_pos_iff.mp this
            refine Or.inl ?_
            rw [hq2]
            exact List.mem_append.mpr (Or.inr ((hnewly k).mpr ⟨hmemadj, hc1, hc2⟩))
        · -- edgeOrder
          intro e he htgt
          rcases List.mem_append.mp htgt with htgt' | htgt'
          · rcases hst.edgeOrder e he htgt' with ⟨hs, hidx⟩
            refine ⟨List.mem_append.mpr (Or.inl hs), ?_⟩
            rw [List.indexOf_append_of_mem hs, List.indexOf_append_of_mem htgt']
            exact hidx
          · simp only [List.mem_singleton] at htgt'
            have hsrcres : e.source ∈ res := by
              by_contra hns
              have h0 := hq0
              unfold remIn at h0
              have hall := List.countP_eq_zero.mp h0 e he
              apply hall
              simp [htgt', contains_eq_decide, hns]
            refine ⟨List.mem_append.mpr (Or.inl hsrcres), ?_⟩
            rw [List.indexOf_append_of_mem hsrcres, htgt',
              List.indexOf_append_of_not_mem hqr]
            have := List.indexOf_lt_length.mpr hsrcres
            simp
            omega
      obtain ⟨tail', heq, hfin⟩ := ih (processNeighbors deg rest (adjOf wf q)).1
        (processNeighbors deg rest (adjOf wf q)).2 (res ++ [q]) hstate (by
          simp only [List.length_append, List.length_singleton]
          omega)
      refine ⟨q :: tail', ?_, ?_⟩
      · show kahnLoop wf (fuel + 1) deg (q :: rest) res = res ++ q :: tail'
        have hk1 : kahnLoop wf (fuel + 1) deg (q :: rest) res =
            kahnLoop wf fuel (processNeighbors deg rest (adjOf wf q)).1
              (processNeighbors deg rest (adjOf wf q)).2 (res ++ [q]) := rfl
        rw [hk1, heq]
        simp
      · have : res ++ [q] ++ tail' = res ++ q :: tail' := by simp
        rwa [this] at hfin

theorem foldlM_inDeg_spec (keys : List String) :
    ∀ (edges : List Edge) (deg0 : List (String × Int)) (c : String → Int)
      (deg : List (String × Int)),
      deg0.map Prod.fst = keys →
      (∀ k ∈ keys, degGet deg0 k = some (c k)) →
      edges.foldlM (inDegStep keys) deg0 = .ok deg →
      deg.map Prod.fst = keys ∧
      (∀ k ∈ keys, degGet deg k =
        some (c k + (edges.countP (fun e => e.target == k) : Int))) ∧
      (∀ e ∈ edges, e.source ∈ keys ∧ e.target ∈ keys) := by
  intro edges
  induction edges with
  | nil =>
    intro deg0 c deg hfst hdeg h
    have hdd : deg0 = deg := by
      simpa [List.foldlM, pure, Except.pure] using h
    subst hdd
    refine ⟨hfst, ?_, by simp⟩
    intro k hk
    simpa using hdeg k hk
  | cons e rest ih =>
    intro deg0 c deg hfst hdeg h
    rw [List.foldlM_cons] at h
    rcases hs : (keys.contains e.source) with _ | _
    · rw [inDegStep, hs] at h
      simp [Bind.bind, Except.bind] at h
    · rcases ht : (deg0.any (fun p => p.1 == e.target)) with _ | _
      · rw [inDegStep, hs, ht] at h
        simp [Bind.bind, Except.bind] at h
      · rw [inDegStep, hs, ht] at h
        simp only [if_pos rfl] at h
        have h' : rest.foldlM (inDegStep keys) (incrDeg deg0 e.target) = .ok deg := by
          simpa [Bind.bind, Except.bind] using h
        have hfst1 : (incrDeg deg0 e.target).map Prod.fst = keys := by
          rw [map_fst_incrDeg]; exact hfst
        have hdeg1 : ∀ k ∈ keys, degGet (incrDeg deg0 e.target) k =
            some (if k = e.target then c k + 1 else c k) := by
          intro k hk
          rw [degGet_incrDeg, hdeg k hk]
          by_cases hkt : k = e.target <;> simp [hkt]
        obtain ⟨hf, hd, hv⟩ := ih (incrDeg deg0 e.target)
          (fun k => if k = e.target then c k + 1 else c k) deg hfst1 hdeg1 h'
        refine ⟨hf, ?_, ?_⟩
        · intro k hk
          rw [hd k hk, List.countP_cons]
          by_cases hkt : k = e.target
          · subst hkt
            simp only [if_pos rfl, beq_self_eq_true, if_pos rfl, Option.some.injEq]
            push_cast
            omega
          · have hbt : (e.target == k) = false := by
              simp only [beq_eq_false_iff_ne, ne_eq]
              exact fun hh => hkt hh.symm
            simp only [if_neg hkt, hbt, Option.some.injEq]
            push_cast
            omega
        · intro e' he'
          rcases List.mem_cons.mp he' with rfl | he''
          · constructor
            · exact contains_iff_mem.mp hs
            · have := any_fst_iff.mp ht
              rwa [hfst] at this
          · exact hv e' he''

theorem foldlM_inDeg_ok (keys : List String) :
    ∀ (edges : List Edge) (deg0 : List (String × Int)),
      deg0.map Prod.fst = keys →
      (∀ e ∈ edges, e.source ∈ keys ∧ e.target ∈ keys) →
      ∃ deg, edges.foldlM (inDegStep keys) deg0 = .ok deg := by
  intro edges
  induction edges with
  | nil =>
    intro deg0 _ _
    exact ⟨deg0, by simp [List.foldlM, pure, Except.pure]⟩
  | cons e rest ih =>
    intro deg0 hfst hv
    have hs : keys.contains e.source = true :=
      contains_iff_mem.mpr (hv e (by simp)).1
    have ht : deg0.any (fun p => p.1 == e.target) = true := by
      rw [any_fst_iff, hfst]
      exact (hv e (by simp)).2
    obtain ⟨deg, hdeg⟩ := ih (incrDeg deg0 e.target)
      (by rw [map_fst_incrDeg]; exact hfst)
      (fun e' he' => hv e' (by simp [he']))
    refine ⟨deg, ?_⟩
    rw [List.foldlM_cons, inDegStep, hs, ht]
    simp only [if_pos rfl]
    simpa [Bind.bind, Except.bind] using hdeg

theorem remIn_nil (wf : Workflow) (k : String) :
    remIn wf [] k = wf.edges.countP (fun e => e.target == k) := by
  unfold remIn
  apply List.countP_congr
  intro e _
  cases ht : (e.target == k) <;> simp [ht, contains_eq_decide]

theorem map_fst_init (keys : List String) :
    (keys.map (fun k => (k, (0 : Int)))).map Prod.fst = keys := by
  induction keys with
  | nil => rfl
  | cons k rest ih => simp [ih]

theorem degGet_init (keys : List String) (hnd : keys.Nodup) (k : String) (hk : k ∈ keys) :
    degGet (keys.map (fun k => (k, (0 : Int)))) k = some 0 := by
  apply degGet_eq_some_of_mem
  · rw [map_fst_init]
    exact hnd
  · exact List.mem_map.mpr ⟨k, hk, rfl⟩

theorem nodeMapGet_id {wf : Workflow} {nid : String} {n : Node}
    (h : nodeMapGet wf nid = some n) : n.id = nid := by
  have := List.find?_some h
  simpa using this

theorem nodeMapGet_mem {wf : Workflow} {nid : String} {n : Node}
    (h : nodeMapGet wf nid = some n) : n ∈ wf.nodes := by
  have := List.mem_of_find?_eq_some h
  exact List.mem_reverse.mp this

theorem nodeMapGet_isSome {wf : Workflow} {nid : String}
    (h : nid ∈ wf.nodes.map (fun n => n.id)) : ∃ n, nodeMapGet wf nid = some n := by
  rcases List.mem_map.mp h with ⟨n, hn, rfl⟩
  cases hf : nodeMapGet wf n.id with
  | some m => exact ⟨m, rfl⟩
  | none =>
    have := List.find?_eq_none.mp hf n (List.mem_reverse.mpr hn)
    simp at this

theorem filterMap_nodeMapGet_map_id (wf : Workflow) :
    ∀ out : List String, (∀ nid ∈ out, nid ∈ wf.nodes.map (fun n => n.id)) →
      (out.filterMap (nodeMapGet wf)).map (fun n => n.id) = out := by
  intro out
  induction out with
  | nil => simp
  | cons nid rest ih =>
    intro h
    obtain ⟨n, hn⟩ := nodeMapGet_isSome (h nid (by simp))
    rw [List.filterMap_cons, hn]
    simp only [List.map_cons]
    rw [nodeMapGet_id hn, ih (fun x hx => h x (by simp [hx]))]

theorem order_mem_nodeMapGet (wf : Workflow) (out : List String) :
    ∀ n ∈ out.filterMap (nodeMapGet wf), nodeMapGet wf n.id = some n := by
  intro n hn
  rcases List.mem_filterMap.mp hn with ⟨nid, _, hsome⟩
  have hid := nodeMapGet_id hsome
  rw [hid]
  exact hsome

/-- Everything `_get_execution_order` guarantees whenever it returns an
order: the nodes of the order are looked up from the workflow, their id list
satisfies the final Kahn invariant (duplicate-free, edge-respecting,
containing every id whose incoming edges are all emitted), and every edge
endpoint is a declared node id. -/
theorem getExecutionOrder_props (wf : Workflow) (order : List Node)
    (h : getExecutionOrder wf = .ok order) :
    (∀ n ∈ order, nodeMapGet wf n.id = some n) ∧
    (∀ n ∈ order, n.id ∈ wf.nodes.map (fun m => m.id)) ∧
    KahnFinal wf (dedupKeys (wf.nodes.map (fun n => n.id))) (order.map (fun n => n.id)) ∧
    (∀ e ∈ wf.edges, e.source ∈ dedupKeys (wf.nodes.map (fun n => n.id)) ∧
      e.target ∈ dedupKeys (wf.nodes.map (fun n => n.id))) := by
  simp only [getExecutionOrder] at h
  rcases hb : buildInDeg (dedupKeys (wf.nodes.map (fun n => n.id))) wf.edges with e | deg
  · rw [hb] at h
    simp at h
  · rw [hb] at h
    simp only [Except.ok.injEq] at h
    have hknd : (dedupKeys (wf.nodes.map (fun n => n.id))).Nodup := dedupKeys_nodup _
    have hb' : wf.edges.foldlM (inDegStep (dedupKeys (wf.nodes.map (fun n => n.id))))
        ((dedupKeys (wf.nodes.map (fun n => n.id))).map (fun k => (k, (0 : Int)))) =
        .ok deg := hb
    obtain ⟨hdfst, hdval, hvalid⟩ :=
      foldlM_inDeg_spec (dedupKeys (wf.nodes.map (fun n => n.id))) wf.edges
        ((dedupKeys (wf.nodes.map (fun n => n.id))).map (fun k => (k, (0 : Int))))
        (fun _ => 0) deg (map_fst_init _)
        (fun k hk => degGet_init _ hknd k hk) hb'
    have hdval' : ∀ k ∈ dedupKeys (wf.nodes.map (fun n => n.id)),
        degGet deg k = some ((remIn wf [] k : Nat) : Int) := by
      intro k hk
      rw [hdval k hk, remIn_nil]
      norm_num
    have hinit : KahnState wf (dedupKeys (wf.nodes.map (fun n => n.id))) deg
        ((deg.filter (fun p => p.2 == 0)).map (fun p => p.1)) [] := by
      refine ⟨hdfst, hdval', ?_, ?_, ?_, ?_, by simp, by simp, by simp, ?_, by simp⟩
      · intro x hx
        rcases List.mem_map.mp hx with ⟨p, hp, rfl⟩
        have : p ∈ deg := List.mem_of_mem_filter hp
        rw [← hdfst]
        exact List.mem_map.mpr ⟨p, this, rfl⟩
      · have hsub : ((deg.filter (fun p => p.2 == 0)).map (fun p => p.1)).Sublist
            (deg.map Prod.fst) := (List.filter_sublist deg).map _
        rw [hdfst] at hsub
        exact hsub.nodup hknd
      · intro x hx
        rcases List.mem_map.mp hx with ⟨p, hp, rfl⟩
        have hmem : p ∈ deg := List.mem_of_mem_filter hp
        have hz : p.2 = 0 := by
          have := List.of_mem_filter hp
          simpa using this
        have hx' : p.1 ∈ dedupKeys (wf.nodes.map (fun n => n.id)) := by
          rw [← hdfst]
          exact List.mem_map.mpr ⟨p, hmem, rfl⟩
        have hget : degGet deg p.1 = some p.2 := by
          apply degGet_eq_some_of_mem
          · rw [hdfst]; exact hknd
          · exact (show (p.1, p.2) ∈ deg by simpa using hmem)
        have := hdval' p.1 hx'
        rw [hget, hz] at this
        injection this with hh
        exact_mod_cast hh.symm
      · intro x _
        simp
      · intro k hk h0
        left
        have hget : degGet deg k = some 0 := by
          rw [hdval' k hk, h0]
          norm_num
        have hmem : (k, (0 : Int)) ∈ deg := mem_of_degGet_eq_some hget
        refine List.mem_map.mpr ⟨(k, (0 : Int)), ?_, rfl⟩
        refine List.mem_filter.mpr ⟨hmem, by simp⟩
    obtain ⟨tail, htail, hfin⟩ := kahnLoop_spec wf
      (dedupKeys (wf.nodes.map (fun n => n.id))) hknd hvalid
      ((dedupKeys (wf.nodes.map (fun n => n.id))).length + 1) deg
      ((deg.filter (fun p => p.2 == 0)).map (fun p => p.1)) [] hinit (by simp)
    rw [List.nil_append] at htail hfin
    have hordid : order.map (fun n => n.id) = tail := by
      rw [← h, htail]
      apply filterMap_nodeMapGet_map_id
      intro nid hnid
      exact dedupKeys_mem.mp (hfin.outKeys nid hnid)
    refine ⟨?_, ?_, ?_, hvalid⟩
    · intro n hn
      apply order_mem_nodeMapGet wf (kahnLoop wf
        ((dedupKeys (wf.nodes.map (fun n => n.id))).length + 1) deg
        ((deg.filter (fun p => p.2 == 0)).map (fun p => p.1)) [])
      rw [← h] at hn
      exact hn
    · intro n hn
      have : n.id ∈ order.map (fun n => n.id) := List.mem_map.mpr ⟨n, hn, rfl⟩
      rw [hordid] at this
      exact dedupKeys_mem.mp (hfin.outKeys n.id this)
    · rw [hordid]
      exact hfin

theorem transGen_indexOf (wf : Workflow) (out : List String)
    (hord : ∀ e ∈ wf.edges, e.target ∈ out →
      e.source ∈ out ∧ out.indexOf e.source < out.indexOf e.target) :
    ∀ u v, Relation.TransGen (EdgeRel wf) u v → v ∈ out →
      u ∈ out ∧ out.indexOf u < out.indexOf v := by
  intro u v htg
  induction htg with
  | single hr =>
    intro hv
    rcases hr with ⟨e, he, hs, ht⟩
    subst hs; subst ht
    exact hord e he hv
  | tail _ hr ih =>
    intro hv
    rcases hr with ⟨e, he, hs, ht⟩
    subst hs; subst ht
    obtain ⟨hsrc, hlt⟩ := hord e he hv
    obtain ⟨hu, hlt'⟩ := ih hsrc
    exact ⟨hu, hlt'.trans hlt⟩

theorem exists_cycle_of_pred (R : String → String → Prop) (S : List String) (hne : S ≠ [])
    (hpred : ∀ k ∈ S, ∃ u ∈ S, R u k) : ∃ v, Relation.TransGen R v v := by
  classical
  obtain ⟨s0, hs0⟩ := List.exists_mem_of_ne_nil S hne
  haveI : Finite {x // x ∈ S} := by
    apply Finite.of_injective
      (fun x : {x // x ∈ S} => (⟨x.1, List.mem_toFinset.mpr x.2⟩ : {y // y ∈ S.toFinset}))
    intro a b hab
    simp only [Subtype.mk.injEq] at hab
    exact Subtype.ext hab
  let f : {x // x ∈ S} → {x // x ∈ S} := fun x =>
    ⟨Classical.choose (hpred x.1 x.2), (Classical.choose_spec (hpred x.1 x.2)).1⟩
  have hf : ∀ x : {x // x ∈ S}, R (f x).1 x.1 := fun x =>
    (Classical.choose_spec (hpred x.1 x.2)).2
  let g : ℕ → {x // x ∈ S} := fun n => f^[n] ⟨s0, hs0⟩
  have hg : ∀ n, g (n + 1) = f (g n) := fun n => Function.iterate_succ_apply' f n _
  have hchain : ∀ m n, m < n → Relation.TransGen R (g n).1 (g m).1 := by
    intro m n hmn
    induction n with
    | zero => omega
    | succ n ihn =>
      rcases Nat.lt_succ_iff_lt_or_eq.mp hmn with h' | h'
      · refine Relation.TransGen.head ?_ (ihn h')
        rw [hg n]
        exact hf (g n)
      · subst h'
        refine Relation.TransGen.single ?_
        rw [hg m]
        exact hf (g m)
  obtain ⟨i, j, hne', heq⟩ := Finite.exists_ne_map_eq_of_infinite g
  rcases Nat.lt_or_ge i j with hij | hij
  · refine ⟨(g i).1, ?_⟩
    have := hchain i j hij
    rwa [← heq] at this
  · have hji : j < i := by omega
    refine ⟨(g j).1, ?_⟩
    have := hchain j i hji
    rwa [heq] at this

theorem getExecutionOrder_ok (wf : Workflow) (hvalid : edgesValidB wf = true) :
    ∃ order, getExecutionOrder wf = .ok order := by
  have hv : ∀ e ∈ wf.edges, e.source ∈ dedupKeys (wf.nodes.map (fun n => n.id)) ∧
      e.target ∈ dedupKeys (wf.nodes.map (fun n => n.id)) := by
    intro e he
    have h1 := List.all_eq_true.mp hvalid e he
    simp only [Bool.and_eq_true, List.any_eq_true] at h1
    obtain ⟨⟨n1, hn1, hb1⟩, ⟨n2, hn2, hb2⟩⟩ := h1
    constructor
    · apply dedupKeys_mem.mpr
      exact List.mem_map.mpr ⟨n1, hn1, by simpa using hb1⟩
    · apply dedupKeys_mem.mpr
      exact List.mem_map.mpr ⟨n2, hn2, by simpa using hb2⟩
  obtain ⟨deg, hdeg⟩ := foldlM_inDeg_ok (dedupKeys (wf.nodes.map (fun n => n.id))) wf.edges
    ((dedupKeys (wf.nodes.map (fun n => n.id))).map (fun k => (k, (0 : Int))))
    (map_fst_init _) hv
  have hb : buildInDeg (dedupKeys (wf.nodes.map (fun n => n.id))) wf.edges = .ok deg := hdeg
  have hres : getExecutionOrder wf = .ok
      ((kahnLoop wf ((dedupKeys (wf.nodes.map (fun n => n.id))).length + 1) deg
        ((deg.filter (fun p => p.2 == 0)).map (fun p => p.1)) []).filterMap
        (fun nid => nodeMapGet wf nid)) := by
    simp only [getExecutionOrder]
    rw [hb]
  exact ⟨_, hres⟩

/-! ### C2 amended -- cycle nodes are silently dropped -/

/-- C2 amended: for a workflow whose edges reference declared nodes, the
scheduler raises no graph-validation error -- it returns an order -- and
that order omits every node that lies on a directed cycle, so cycle nodes
never execute; there is no length check and no failure. -/
theorem cycle_nodes_silently_dropped (wf : Workflow) (hvalid : edgesValidB wf = true)
    (v : String) (hcyc : Relation.TransGen (EdgeRel wf) v v) :
    ∃ order, getExecutionOrder wf = .ok order ∧ v ∉ order.map (fun n => n.id) := by
  obtain ⟨order, hord⟩ := getExecutionOrder_ok wf hvalid
  refine ⟨order, hord, ?_⟩
  intro hv
  obtain ⟨_, _, hfin, _⟩ := getExecutionOrder_props wf order hord
  obtain ⟨_, hlt⟩ := transGen_indexOf wf _ hfin.edgeOrder v v hcyc hv
  omega

/-- Witness for `cycle_nodes_silently_dropped`: in `wfCycle` the node `a`
lies on the cycle `a -> b -> a` and is absent from the returned order. -/
theorem cycle_nodes_silently_dropped_witness :
    ∃ order, getExecutionOrder wfCycle = .ok order ∧ "a" ∉ order.map (fun n => n.id) :=
  cycle_nodes_silently_dropped wfCycle (by decide) "a"
    (Relation.TransGen.head ⟨⟨"a", "b"⟩, by decide, rfl, rfl⟩
      (Relation.TransGen.single ⟨⟨"b", "a"⟩, by decide, rfl, rfl⟩))

/-! ### C3 -- topological correctness on acyclic graphs -/

/-- Acyclicity follows from any ranking list that sends every edge
strictly forward. -/
theorem acyclic_of_ranking (wf : Workflow) (L : List String)
    (h : ∀ e ∈ wf.edges, L.indexOf e.source < L.indexOf e.target) :
    Acyclic wf := by
  have mono : ∀ u v, Relation.TransGen (EdgeRel wf) u v →
      L.indexOf u < L.indexOf v := by
    intro u v htg
    induction htg with
    | single hr =>
      rcases hr with ⟨e, he, hs, ht⟩
      subst hs; subst ht
      exact h e he
    | tail _ hr ih =>
      rcases hr with ⟨e, he, hs, ht⟩
      subst hs; subst ht
      exact ih.trans (h e he)
  intro v hv
  exact lt_irrefl _ (mono v v hv)

/-- C3: for every structurally valid acyclic workflow the scheduler returns
an order whose id list is a permutation of the declared node ids (each node
appears exactly once) and in which the source of every edge appears strictly
before its target (every graph-predecessor comes earlier). -/
theorem kahn_topological_correct (wf : Workflow)
    (hnd : (wf.nodes.map (fun n => n.id)).Nodup)
    (hvalid : edgesValidB wf = true)
    (hacyc : Acyclic wf) :
    ∃ order, getExecutionOrder wf = .ok order ∧
      (order.map (fun n => n.id)).Perm (wf.nodes.map (fun n => n.id)) ∧
      ∀ e ∈ wf.edges,
        (order.map (fun n => n.id)).indexOf e.source <
          (order.map (fun n => n.id)).indexOf e.target := by
  obtain ⟨order, hord⟩ := getExecutionOrder_ok wf hvalid
  obtain ⟨_, _, hfin, hkeys⟩ := getExecutionOrder_props wf order hord
  have hded : dedupKeys (wf.nodes.map (fun n => n.id)) = wf.nodes.map (fun n => n.id) :=
    dedupKeys_eq_self hnd
  rw [hded] at hfin hkeys
  -- the ids not emitted would all have an un-emitted predecessor: a cycle
  have hcover : ∀ k ∈ wf.nodes.map (fun n => n.id), k ∈ order.map (fun n => n.id) := by
    by_contra hnc
    push_neg at hnc
    set S := (wf.nodes.map (fun n => n.id)).filter
      (fun k => decide (k ∉ order.map (fun n => n.id))) with hS
    have hSne : S ≠ [] := by
      obtain ⟨k, hk, hkn⟩ := hnc
      intro hnil
      have : k ∈ S := List.mem_filter.mpr ⟨hk, by simpa using hkn⟩
      rw [hnil] at this
      simp at this
    have hpred : ∀ k ∈ S, ∃ u ∈ S, EdgeRel wf u k := by
      intro k hk
      obtain ⟨hkm, hkd⟩ := List.mem_filter.mp hk
      have hknot : k ∉ order.map (fun n => n.id) := by simpa using hkd
      have hrem : remIn wf (order.map (fun n => n.id)) k ≠ 0 := by
        intro h0
        exact hknot (hfin.zeroIn k hkm h0)
      have hpos : 0 < remIn wf (order.map (fun n => n.id)) k := Nat.pos_of_ne_zero hrem
      unfold remIn at hpos
      obtain ⟨e, he, hpe⟩ := List.countP_pos_iff.mp hpos
      simp only [Bool.and_eq_true, Bool.not_eq_true', contains_eq_decide,
        decide_eq_false_iff_not, beq_iff_eq] at hpe
      obtain ⟨hte, hse⟩ := hpe
      refine ⟨e.source, ?_, ⟨e, he, rfl, hte⟩⟩
      refine List.mem_filter.mpr ⟨(hkeys e he).1, by simpa using hse⟩
    obtain ⟨v, hv⟩ := exists_cycle_of_pred (EdgeRel wf) S hSne hpred
    exact hacyc v hv
  refine ⟨order, hord, ?_, ?_⟩
  · apply List.Subperm.antisymm
    · exact List.subperm_of_subset hfin.outNodup
        (fun x hx => hfin.outKeys x hx)
    · exact List.subperm_of_subset hnd hcover
  · intro e he
    have htgt : e.target ∈ order.map (fun n => n.id) := hcover _ (hkeys e he).2
    exact (hfin.edgeOrder e he htgt).2

/-- Witness for `kahn_topological_correct` at the two-node chain. -/
theorem kahn_topological_correct_witness :
    ∃ order, getExecutionOrder wfPair = .ok order ∧
      (order.map (fun n => n.id)).Perm (wfPair.nodes.map (fun n => n.id)) ∧
      ∀ e ∈ wfPair.edges,
        (order.map (fun n => n.id)).indexOf e.source <
          (order.map (fun n => n.id)).indexOf e.target :=
  kahn_topological_correct wfPair (by decide) (by decide)
    (acyclic_of_ranking wfPair ["s", "t"] (by decide))

/-! ### Driver loop: event structure -/

theorem stepNode_not_executed (orc : Oracles) (N : Nat) (st : LoopState) (p : Nat × Node)
    (h : p.2.id ∉ st.executed) :
    stepNode orc N st p =
      { vars := dictUpdate st.vars (readOut st.vars
          (executeNode orc p.2 st.vars st.nodeOutputs).outputs),
        nodeOutputs := outsSet st.nodeOutputs p.2.id
          (executeNode orc p.2 st.vars st.nodeOutputs),
        executed := st.executed ++ [p.2.id],
        events := st.events ++
          [.progressUpdate ((p.1 + 1 : ℚ) / N) p.2.id,
           .nodeCompleted p.2.id (executeNode orc p.2 st.vars st.nodeOutputs)] } := by
  unfold stepNode
  rw [if_neg (fun hc => h (contains_iff_mem.mp hc))]

theorem foldl_stepNode_events (orc : Oracles) (N : Nat) :
    ∀ (l : List (Nat × Node)) (st : LoopState),
      (∀ p ∈ l, p.2.id ∉ st.executed) →
      (l.map (fun p => p.2.id)).Nodup →
      ∃ recs : List NodeRecord, recs.length = l.length ∧
        (l.foldl (stepNode orc N) st).events =
          st.events ++ ((l.zip recs).map (fun q =>
            [Event.progressUpdate ((q.1.1 + 1 : ℚ) / N) q.1.2.id,
             Event.nodeCompleted q.1.2.id q.2])).flatten := by
  intro l
  induction l with
  | nil =>
    intro st _ _
    exact ⟨[], rfl, by simp⟩
  | cons p rest ih =>
    intro st hnm hnd
    have hp : p.2.id ∉ st.executed := hnm p (by simp)
    rw [List.foldl_cons, stepNode_not_executed orc N st p hp]
    simp only [List.map_cons, List.nodup_cons] at hnd
    obtain ⟨recs, hlen, hev⟩ := ih
      { vars := dictUpdate st.vars (readOut st.vars
          (executeNode orc p.2 st.vars st.nodeOutputs).outputs),
        nodeOutputs := outsSet st.nodeOutputs p.2.id
          (executeNode orc p.2 st.vars st.nodeOutputs),
        executed := st.executed ++ [p.2.id],
        events := st.events ++
          [.progressUpdate ((p.1 + 1 : ℚ) / N) p.2.id,
           .nodeCompleted p.2.id (executeNode orc p.2 st.vars st.nodeOutputs)] }
      (by
        intro q hq
        simp only [List.mem_append, List.mem_singleton]
        rintro (hq' | hq')
        · exact hnm q (by simp [hq]) hq'
        · exact hnd.1 (hq' ▸ List.mem_map.mpr ⟨q, hq, rfl⟩))
      hnd.2
    refine ⟨executeNode orc p.2 st.vars st.nodeOutputs :: recs, by simp [hlen], ?_⟩
    rw [hev]
    simp [List.append_assoc]

theorem progressFractions_append (a b : List Event) :
    progressFractions (a ++ b) = progressFractions a ++ progressFractions b := by
  unfold progressFractions
  rw [List.filterMap_append]

theorem progressFractions_blocks (N : Nat) :
    ∀ (l : List (Nat × Node)) (recs : List NodeRecord), recs.length = l.length →
      progressFractions (((l.zip recs).map (fun q =>
        [Event.progressUpdate ((q.1.1 + 1 : ℚ) / N) q.1.2.id,
         Event.nodeCompleted q.1.2.id q.2])).flatten) =
      l.map (fun p => ((p.1 + 1 : ℚ) / N)) := by
  intro l
  induction l with
  | nil =>
    intro recs _
    simp [progressFractions]
  | cons p rest ih =>
    intro recs hlen
    cases recs with
    | nil => simp at hlen
    | cons r recs' =>
      simp only [List.zip_cons_cons, List.map_cons, List.flatten_cons]
      rw [progressFractions_append, ih recs' (by simpa using hlen)]
      simp [progressFractions]

/-- The full event stream of a run whose start-node check passes and whose
scheduler returns `order`: the start event, then for the node at index `i`
one progress event with fraction `(i+1)/N` immediately followed by its
node-completed event, then the completion event. -/
theorem executeWorkflow_ok_events (orc : Oracles) (wf : Workflow) (input : Dict)
    (order : List Node)
    (hstart : (wf.nodes.any (fun n => n.type == NodeType.start)) = true)
    (hord : getExecutionOrder wf = .ok order) :
    ∃ (recs : List NodeRecord) (outputData : Dict), recs.length = order.length ∧
      (executeWorkflow orc wf input).events =
        Event.executionStarted wf.nodes.length ::
          (((order.enum.zip recs).map (fun q =>
            [Event.progressUpdate ((q.1.1 + 1 : ℚ) / order.length) q.1.2.id,
             Event.nodeCompleted q.1.2.id q.2])).flatten
          ++ [Event.executionCompleted outputData]) := by
  have hnodup : (order.enum.map (fun p => p.2.id)).Nodup := by
    have h1 : order.enum.map (fun p => p.2.id) = order.map (fun n => n.id) := by
      rw [show (fun p : Nat × Node => p.2.id) = (fun n : Node => n.id) ∘ Prod.snd from rfl]
      rw [← List.map_map, List.enum_map_snd]
    rw [h1]
    exact (getExecutionOrder_props wf order hord).2.2.1.outNodup
  simp only [executeWorkflow]
  rw [hstart]
  simp only [Bool.not_true, Bool.false_eq_true, if_false]
  rw [hord]
  dsimp only
  obtain ⟨recs, hlen, hev⟩ := foldl_stepNode_events orc order.length order.enum
    ⟨input, [], [], [Event.executionStarted wf.nodes.length]⟩ (by simp) hnodup
  refine ⟨recs,
    extractFinalOutputs wf
      (List.foldl (stepNode orc order.length)
        ⟨input, [], [], [Event.executionStarted wf.nodes.length]⟩ order.enum).vars
      (List.foldl (stepNode orc order.length)
        ⟨input, [], [], [Event.executionStarted wf.nodes.length]⟩ order.enum).nodeOutputs,
    by simpa using hlen, ?_⟩
  rw [hev]
  simp

theorem outsGet_cons (p : String × NodeRecord) (rest : List (String × NodeRecord))
    (nid : String) :
    outsGet (p :: rest) nid = if p.1 = nid then some p.2 else outsGet rest nid := by
  unfold outsGet
  by_cases h : p.1 = nid
  · rw [List.find?_cons_of_pos _ (by simp [h]), if_pos h]
    rfl
  · rw [List.find?_cons_of_neg _ (by simp [h]), if_neg h]

theorem outsGet_mapSet (outs : List (String × NodeRecord)) (nid nid' : String)
    (rec : NodeRecord) (h : nid' ≠ nid) :
    outsGet (outs.map (fun p => if p.1 == nid then (nid, rec) else p)) nid' =
      outsGet outs nid' := by
  induction outs with
  | nil => rfl
  | cons p rest ih =>
    obtain ⟨k, r⟩ := p
    by_cases hp : k = nid
    · subst hp
      simp only [List.map_cons, beq_self_eq_true, if_true, outsGet_cons]
      rw [if_neg (Ne.symm h), if_neg (Ne.symm h)]
      exact ih
    · simp only [List.map_cons, beq_iff_eq, hp, if_false, outsGet_cons]
      by_cases hq : k = nid'
      · rw [if_pos hq, if_pos hq]
      · rw [if_neg hq, if_neg hq]
        simpa only [beq_iff_eq] using ih

theorem outsGet_append_ne (outs : List (String × NodeRecord)) (nid nid' : String)
    (rec : NodeRecord) (h : nid' ≠ nid) :
    outsGet (outs ++ [(nid, rec)]) nid' = outsGet outs nid' := by
  induction outs with
  | nil =>
    simp only [List.nil_append, outsGet_cons]
    rw [if_neg (Ne.symm h)]
  | cons p rest ih =>
    obtain ⟨k, r⟩ := p
    simp only [List.cons_append, outsGet_cons]
    by_cases hq : k = nid'
    · rw [if_pos hq, if_pos hq]
    · rw [if_neg hq, if_neg hq]
      exact ih

theorem outsGet_outsSet_ne (outs : List (String × NodeRecord)) (nid nid' : String)
    (rec : NodeRecord) (h : nid' ≠ nid) :
    outsGet (outsSet outs nid rec) nid' = outsGet outs nid' := by
  unfold outsSet
  split
  · exact outsGet_mapSet outs nid nid' rec h
  · exact outsGet_append_ne outs nid nid' rec h

theorem mem_outsSet (outs : List (String × NodeRecord)) (nid : String)
    (rec : NodeRecord) (q : String × NodeRecord) (hq : q ∈ outsSet outs nid rec) :
    q ∈ outs ∨ q = (nid, rec) := by
  unfold outsSet at hq
  split at hq
  · obtain ⟨p, hp, hfp⟩ := List.mem_map.mp hq
    by_cases hc : p.1 = nid
    · right
      rw [← hfp]
      simp [hc]
    · left
      rw [← hfp]
      simpa [hc] using hp
  · rcases List.mem_append.mp hq with h1 | h1
    · exact Or.inl h1
    · exact Or.inr (List.mem_singleton.mp h1)

theorem map_fst_outsSet (outs : List (String × NodeRecord)) (nid : String)
    (rec : NodeRecord) :
    (outsSet outs nid rec).map (fun p => p.1) =
      if outs.any (fun p => p.1 == nid) then outs.map (fun p => p.1)
      else outs.map (fun p => p.1) ++ [nid] := by
  unfold outsSet
  split
  · rw [List.map_map]
    apply List.map_congr_left
    intro p _
    by_cases hp : p.1 = nid
    · simp [Function.comp, hp]
    · simp [Function.comp, hp]
  · simp

theorem outsGet_mem (outs : List (String × NodeRecord)) (nid : String)
    (rec : NodeRecord) (h : outsGet outs nid = some rec) : (nid, rec) ∈ outs := by
  unfold outsGet at h
  cases hf : outs.find? (fun p => p.1 == nid) with
  | none => rw [hf] at h; cases h
  | some q =>
    rw [hf] at h
    have hm := List.mem_of_find?_eq_some hf
    have hp := List.find?_some hf
    simp only [beq_iff_eq] at hp
    have h2 : q.2 = rec := by simpa using h
    have hqe : q = (nid, rec) := by
      cases q
      simp only [Prod.mk.injEq]
      exact ⟨hp, h2⟩
    rwa [hqe] at hm

theorem executeNodeInner_start (orc : Oracles) (node : Node) (vars : Dict)
    (outs : List (String × NodeRecord)) (h : node.type = NodeType.start) :
    executeNodeInner orc node vars outs =
      .ok ⟨.varsAlias, ["Workflow started with input variables"]⟩ := by
  unfold executeNodeInner
  rw [h]

theorem executeNodeInner_lit (orc : Oracles) (node : Node) (vars : Dict)
    (outs : List (String × NodeRecord)) (pre : PreRecord)
    (h : node.type ≠ NodeType.start)
    (hok : executeNodeInner orc node vars outs = .ok pre) :
    ∃ d, pre.outputs = OutPtr.lit d := by
  unfold executeNodeInner at hok
  cases htype : node.type <;> rw [htype] at hok <;> dsimp only at hok
  case start => exact absurd htype h
  all_goals
    repeat' split at hok
  all_goals
    first
      | (cases hok; exact ⟨_, rfl⟩)
      | (cases hok)

theorem executeNode_outputs_shape (orc : Oracles) (node : Node) (vars : Dict)
    (outs : List (String × NodeRecord)) :
    (node.type = NodeType.start ∧
      (executeNode orc node vars outs).outputs = OutPtr.varsAlias) ∨
    (node.type ≠ NodeType.start ∧
      ∃ d, (executeNode orc node vars outs).outputs = OutPtr.lit d) := by
  by_cases hst : node.type = NodeType.start
  · left
    refine ⟨hst, ?_⟩
    unfold executeNode
    rw [executeNodeInner_start orc node vars outs hst]
  · right
    refine ⟨hst, ?_⟩
    unfold executeNode
    cases hin : executeNodeInner orc node vars outs with
    | error e => exact ⟨[], rfl⟩
    | ok pre => exact executeNodeInner_lit orc node vars outs pre hst hin

theorem stepNode_executed (orc : Oracles) (N : Nat) (st : LoopState) (p : Nat × Node)
    (h : p.2.id ∈ st.executed) : stepNode orc N st p = st := by
  unfold stepNode
  rw [if_pos (contains_iff_mem.mpr h)]

theorem foldl_stepNode_persist (orc : Oracles) (total : Nat) (l : List (Nat × Node))
    (st : LoopState) (nid : String) (rec : NodeRecord)
    (hget : outsGet st.nodeOutputs nid = some rec) (hexec : nid ∈ st.executed) :
    outsGet (List.foldl (stepNode orc total) st l).nodeOutputs nid = some rec := by
  induction l generalizing st with
  | nil => exact hget
  | cons p rest ih =>
    rw [List.foldl_cons]
    by_cases hin : p.2.id ∈ st.executed
    · rw [stepNode_executed orc total st p hin]
      exact ih st hget hexec
    · rw [stepNode_not_executed orc total st p hin]
      have hne : nid ≠ p.2.id := fun hc => hin (hc ▸ hexec)
      apply ih
      · dsimp only
        rw [outsGet_outsSet_ne _ _ _ _ hne]
        exact hget
      · exact List.mem_append_left _ hexec

theorem foldl_stepNode_keys_inv (orc : Oracles) (total : Nat) (l : List (Nat × Node))
    (st : LoopState)
    (hnodup : (st.nodeOutputs.map (fun p => p.1)).Nodup)
    (hsub : ∀ k ∈ st.nodeOutputs.map (fun p => p.1), k ∈ st.executed) :
    ((List.foldl (stepNode orc total) st l).nodeOutputs.map (fun p => p.1)).Nodup ∧
    (∀ k ∈ (List.foldl (stepNode orc total) st l).nodeOutputs.map (fun p => p.1),
        k ∈ (List.foldl (stepNode orc total) st l).executed) := by
  induction l generalizing st with
  | nil => exact ⟨hnodup, hsub⟩
  | cons p rest ih =>
    rw [List.foldl_cons]
    by_cases hin : p.2.id ∈ st.executed
    · rw [stepNode_executed orc total st p hin]
      exact ih st hnodup hsub
    · rw [stepNode_not_executed orc total st p hin]
      apply ih
      · dsimp only
        rw [map_fst_outsSet]
        split
        · exact hnodup
        · rw [List.nodup_append]
          refine ⟨hnodup, List.nodup_singleton _, ?_⟩
          intro a ha hb
          rw [List.mem_singleton] at hb
          subst hb
          exact hin (hsub _ ha)
      · dsimp only
        rw [map_fst_outsSet]
        split
        · intro k hk
          exact List.mem_append_left _ (hsub k hk)
        · intro k hk
          rcases List.mem_append.mp hk with h1 | h1
          · exact List.mem_append_left _ (hsub k h1)
          · exact List.mem_append_right _ h1

theorem foldl_stepNode_provenance (orc : Oracles) (total : Nat)
    (L : List (Nat × Node)) (l : List (Nat × Node)) (st : LoopState)
    (hsubL : ∀ r ∈ l, r ∈ L)
    (hinv : ∀ q ∈ st.nodeOutputs, ∃ r ∈ L, r.2.id = q.1 ∧
        ((r.2.type = NodeType.start ∧ q.2.outputs = OutPtr.varsAlias) ∨
         (r.2.type ≠ NodeType.start ∧ ∃ d, q.2.outputs = OutPtr.lit d))) :
    ∀ q ∈ (List.foldl (stepNode orc total) st l).nodeOutputs, ∃ r ∈ L, r.2.id = q.1 ∧
        ((r.2.type = NodeType.start ∧ q.2.outputs = OutPtr.varsAlias) ∨
         (r.2.type ≠ NodeType.start ∧ ∃ d, q.2.outputs = OutPtr.lit d)) := by
  induction l generalizing st with
  | nil => exact hinv
  | cons p rest ih =>
    rw [List.foldl_cons]
    by_cases hin : p.2.id ∈ st.executed
    · rw [stepNode_executed orc total st p hin]
      exact ih st (fun r hr => hsubL r (List.mem_cons_of_mem _ hr)) hinv
    · rw [stepNode_not_executed orc total st p hin]
      apply ih _ (fun r hr => hsubL r (List.mem_cons_of_mem _ hr))
      intro q hq
      rcases mem_outsSet _ _ _ q hq with hold | hnew
      · exact hinv q hold
      · refine ⟨p, hsubL p (List.mem_cons_self _ _), ?_, ?_⟩
        · rw [hnew]
        · rw [hnew]
          rcases executeNode_outputs_shape orc p.2 st.vars st.nodeOutputs with
            ⟨hty, hout⟩ | ⟨hty, d, hout⟩
          · exact Or.inl ⟨hty, hout⟩
          · exact Or.inr ⟨hty, d, hout⟩

/-! ### C4 amended -- write-once, value-stored records, start aliased -/

/-- C4 amended: over a driver run whose order has duplicate-free node ids,
the node-output map is write-once (a record stored after any prefix of the
loop is still stored, unchanged, at the end), each node id is stored at most
once, and the record stored for every non-start node is a literal dict whose
dereference does not depend on the current variable scope -- so later context
updates cannot change it; the start node's record instead stores the alias
of the variable scope itself, whose dereference is always the current scope. -/
theorem node_records_value_stored_except_start (orc : Oracles) (total : Nat)
    (input : Dict) (ev0 : List Event) (pre suf : List (Nat × Node))
    (hids : ((pre ++ suf).map (fun p => p.2.id)).Nodup) :
    (∀ nid rec,
      outsGet (List.foldl (stepNode orc total)
        (⟨input, [], [], ev0⟩ : LoopState) pre).nodeOutputs nid = some rec →
      outsGet (List.foldl (stepNode orc total)
        (⟨input, [], [], ev0⟩ : LoopState) (pre ++ suf)).nodeOutputs nid = some rec) ∧
    (((List.foldl (stepNode orc total)
        (⟨input, [], [], ev0⟩ : LoopState) (pre ++ suf)).nodeOutputs.map
          (fun p => p.1)).Nodup) ∧
    (∀ p ∈ pre ++ suf, p.2.type ≠ NodeType.start →
      ∀ rec, outsGet (List.foldl (stepNode orc total)
          (⟨input, [], [], ev0⟩ : LoopState) (pre ++ suf)).nodeOutputs p.2.id =
            some rec →
        ∃ d, rec.outputs = OutPtr.lit d ∧
          ∀ vars1 vars2 : Dict, readOut vars1 rec.outputs = readOut vars2 rec.outputs) ∧
    (∀ p ∈ pre ++ suf, p.2.type = NodeType.start →
      ∀ rec, outsGet (List.foldl (stepNode orc total)
          (⟨input, [], [], ev0⟩ : LoopState) (pre ++ suf)).nodeOutputs p.2.id =
            some rec →
        rec.outputs = OutPtr.varsAlias ∧
          ∀ vars : Dict, readOut vars rec.outputs = vars) := by
  have hkeys := foldl_stepNode_keys_inv orc total pre
    (⟨input, [], [], ev0⟩ : LoopState) (by simp) (by simp)
  have hprov := foldl_stepNode_provenance orc total (pre ++ suf) (pre ++ suf)
    (⟨input, [], [], ev0⟩ : LoopState) (fun r hr => hr) (by simp)
  have hinj : ∀ x ∈ pre ++ suf, ∀ y ∈ pre ++ suf, x.2.id = y.2.id → x = y := by
    intro x hx y hy hxy
    exact List.inj_on_of_nodup_map hids hx hy hxy
  refine ⟨?_, ?_, ?_, ?_⟩
  · intro nid rec hget
    rw [List.foldl_append]
    apply foldl_stepNode_persist orc total suf _ nid rec hget
    exact hkeys.2 nid (List.mem_map.mpr ⟨(nid, rec), outsGet_mem _ _ _ hget, rfl⟩)
  · exact (foldl_stepNode_keys_inv orc total (pre ++ suf)
      (⟨input, [], [], ev0⟩ : LoopState) (by simp) (by simp)).1
  · intro p hp hty rec hget
    obtain ⟨r, hr, hrid, hcase⟩ := hprov (p.2.id, rec) (outsGet_mem _ _ _ hget)
    have hrp : r = p := hinj r hr p hp hrid
    rcases hcase with ⟨hst, _⟩ | ⟨_, d, hout⟩
    · exact absurd (hrp ▸ hst) hty
    · exact ⟨d, hout, fun v1 v2 => by rw [hout]; rfl⟩
  · intro p hp hty rec hget
    obtain ⟨r, hr, hrid, hcase⟩ := hprov (p.2.id, rec) (outsGet_mem _ _ _ hget)
    have hrp : r = p := hinj r hr p hp hrid
    rcases hcase with ⟨_, hout⟩ | ⟨hst, _⟩
    · exact ⟨hout, fun v => by rw [hout]; rfl⟩
    · exact absurd (hrp ▸ hty) hst

/-- Witness for `node_records_value_stored_except_start` on the two-node
chain, split after its first step. -/
theorem node_records_value_stored_except_start_witness :
    (∀ nid rec,
      outsGet (List.foldl (stepNode orcStub 2)
        (⟨[], [], [], []⟩ : LoopState) [(0, nodeS)]).nodeOutputs nid = some rec →
      outsGet (List.foldl (stepNode orcStub 2)
        (⟨[], [], [], []⟩ : LoopState) ([(0, nodeS)] ++ [(1, nodeT)])).nodeOutputs nid =
          some rec) ∧
    (((List.foldl (stepNode orcStub 2)
        (⟨[], [], [], []⟩ : LoopState) ([(0, nodeS)] ++ [(1, nodeT)])).nodeOutputs.map
          (fun p => p.1)).Nodup) ∧
    (∀ p ∈ [(0, nodeS)] ++ [(1, nodeT)], p.2.type ≠ NodeType.start →
      ∀ rec, outsGet (List.foldl (stepNode orcStub 2)
          (⟨[], [], [], []⟩ : LoopState) ([(0, nodeS)] ++ [(1, nodeT)])).nodeOutputs
            p.2.id = some rec →
        ∃ d, rec.outputs = OutPtr.lit d ∧
          ∀ vars1 vars2 : Dict, readOut vars1 rec.outputs = readOut vars2 rec.outputs) ∧
    (∀ p ∈ [(0, nodeS)] ++ [(1, nodeT)], p.2.type = NodeType.start →
      ∀ rec, outsGet (List.foldl (stepNode orcStub 2)
          (⟨[], [], [], []⟩ : LoopState) ([(0, nodeS)] ++ [(1, nodeT)])).nodeOutputs
            p.2.id = some rec →
        rec.outputs = OutPtr.varsAlias ∧
          ∀ vars : Dict, readOut vars rec.outputs = vars) :=
  node_records_value_stored_except_start orcStub 2 [] [] [(0, nodeS)] [(1, nodeT)]
    (by decide)

theorem order_contains_free_node (wf : Workflow) (order : List Node)
    (hord : getExecutionOrder wf = .ok order) (n : Node) (hn : n ∈ wf.nodes)
    (hfree : ∀ e ∈ wf.edges, e.target ≠ n.id) :
    n.id ∈ order.map (fun m => m.id) := by
  obtain ⟨_, _, hfin, _⟩ := getExecutionOrder_props wf order hord
  apply hfin.zeroIn
  · exact dedupKeys_mem.mpr (List.mem_map.mpr ⟨n, hn, rfl⟩)
  · unfold remIn
    rw [List.countP_eq_zero]
    intro e he hcond
    simp only [Bool.and_eq_true, beq_iff_eq] at hcond
    exact hfree e he hcond.1

/-! ### C9 -- progress monotonicity and the final fraction -/

/-- C9: within any single run whose graph has a start node without incoming
edges, the progress fractions carried by the emitted progress-update events
are (pairwise) non-decreasing, and whenever the workflow-completed event is
emitted the final emitted progress fraction equals 1. -/
theorem progress_monotone_final_one (orc : Oracles) (wf : Workflow) (input : Dict)
    (hstart : ∃ n ∈ wf.nodes, n.type = NodeType.start ∧ ∀ e ∈ wf.edges, e.target ≠ n.id) :
    (progressFractions (executeWorkflow orc wf input).events).Pairwise (· ≤ ·) ∧
    ((executeWorkflow orc wf input).events.any isCompletedEvent = true →
      (progressFractions (executeWorkflow orc wf input).events).getLast? = some 1) := by
  obtain ⟨n, hn, htype, hfree⟩ := hstart
  have hany : (wf.nodes.any (fun m => m.type == NodeType.start)) = true :=
    List.any_eq_true.mpr ⟨n, hn, by simp [htype]⟩
  rcases hord : getExecutionOrder wf with e | order
  · have hev : (executeWorkflow orc wf input).events =
        [Event.executionStarted wf.nodes.length, Event.executionFailed e] := by
      simp only [executeWorkflow]
      rw [hany]
      simp only [Bool.not_true, Bool.false_eq_true, if_false]
      rw [hord]
      rfl
    rw [hev]
    constructor
    · simp [progressFractions]
    · intro hc
      simp [isCompletedEvent] at hc
  · obtain ⟨recs, outD, hlen, hev⟩ := executeWorkflow_ok_events orc wf input order hany hord
    have hpf : progressFractions (executeWorkflow orc wf input).events =
        order.enum.map (fun p => ((p.1 + 1 : ℚ) / order.length)) := by
      rw [hev]
      unfold progressFractions
      rw [List.filterMap_cons]
      dsimp only
      rw [List.filterMap_append]
      have h2 := progressFractions_blocks order.length order.enum recs (by simpa using hlen)
      unfold progressFractions at h2
      rw [h2]
      simp
    have hrange : order.enum.map (fun p => ((p.1 + 1 : ℚ) / order.length)) =
        (List.range order.length).map
          (fun i : ℕ => (((i : ℚ) + 1) / (order.length : ℚ))) := by
      rw [show (fun p : Nat × Node => ((p.1 + 1 : ℚ) / order.length)) =
        (fun i : ℕ => (((i : ℚ) + 1) / (order.length : ℚ))) ∘ Prod.fst from rfl]
      rw [← List.map_map, List.enum_map_fst]
    constructor
    · rw [hpf, hrange, List.pairwise_map]
      apply (List.pairwise_lt_range order.length).imp
      intro a b hab
      by_cases hN : ((order.length : ℚ)) = 0
      · simp [hN]
      · have hNpos : (0 : ℚ) < (order.length : ℚ) := by
          rcases Nat.eq_zero_or_pos order.length with h0 | h0
          · exact absurd (by exact_mod_cast congrArg (Nat.cast : Nat → ℚ) h0) hN
          · exact_mod_cast h0
        rw [div_le_div_iff_of_pos_right hNpos]
        have : (a : ℚ) ≤ b := by exact_mod_cast Nat.le_of_lt hab
        linarith
    · intro _
      have hne : order ≠ [] := by
        intro h0
        have := order_contains_free_node wf order hord n hn hfree
        rw [h0] at this
        simp at this
      obtain ⟨m, hm⟩ : ∃ m, order.length = m + 1 := by
        cases horder : order with
        | nil => exact absurd horder hne
        | cons a l => exact ⟨l.length, by simp [horder]⟩
      rw [hpf, hrange, hm, List.range_succ, List.map_append]
      rw [List.map_singleton, List.getLast?_concat]
      have hmne : ((m : ℚ) + 1) ≠ 0 := by positivity
      rw [show ((m + 1 : ℕ) : ℚ) = (m : ℚ) + 1 from by push_cast; ring]
      rw [div_self hmne]

/-- Witness for `progress_monotone_final_one` at the two-node chain. -/
theorem progress_monotone_final_one_witness :
    (progressFractions (executeWorkflow orcStub wfPair []).events).Pairwise (· ≤ ·) ∧
    ((executeWorkflow orcStub wfPair []).events.any isCompletedEvent = true →
      (progressFractions (executeWorkflow orcStub wfPair []).events).getLast? = some 1) :=
  progress_monotone_final_one orcStub wfPair []
    ⟨nodeS, by decide, rfl, by decide⟩

/-! ### C10 amended -- the fraction emitted before each node -/

/-- C10 amended: for each node at 0-based index `i` of the computed order of
length `N`, the driver emits a progress-update event carrying fraction
`(i+1)/N` (that is, `i/N` with `i` 1-based) immediately before that node's
completion event; the fraction `1.0` is therefore emitted at the start of
the final iteration, before the last node executes, not after the loop. -/
theorem driver_event_block_structure (orc : Oracles) (wf : Workflow) (input : Dict)
    (order : List Node)
    (hstart : (wf.nodes.any (fun n => n.type == NodeType.start)) = true)
    (hord : getExecutionOrder wf = .ok order) :
    ∃ (recs : List NodeRecord) (outputData : Dict), recs.length = order.length ∧
      (executeWorkflow orc wf input).events =
        Event.executionStarted wf.nodes.length ::
          (((order.enum.zip recs).map (fun q =>
            [Event.progressUpdate ((q.1.1 + 1 : ℚ) / order.length) q.1.2.id,
             Event.nodeCompleted q.1.2.id q.2])).flatten
          ++ [Event.executionCompleted outputData]) :=
  executeWorkflow_ok_events orc wf input order hstart hord

/-- Witness for `driver_event_block_structure` at the two-node chain. -/
theorem driver_event_block_structure_witness :
    ∃ (recs : List NodeRecord) (outputData : Dict), recs.length = [nodeS, nodeT].length ∧
      (executeWorkflow orcStub wfPair []).events =
        Event.executionStarted wfPair.nodes.length ::
          ((([nodeS, nodeT].enum.zip recs).map (fun q =>
            [Event.progressUpdate ((q.1.1 + 1 : ℚ) / [nodeS, nodeT].length) q.1.2.id,
             Event.nodeCompleted q.1.2.id q.2])).flatten
          ++ [Event.executionCompleted outputData]) :=
  driver_event_block_structure orcStub wfPair [] [nodeS, nodeT] (by decide) (by decide)

/-! ### C7 -- the context round trip through the resolver -/

theorem takeWhile_append_all (p : Char → Bool) (l1 l2 : List Char)
    (h : ∀ c ∈ l1, p c = true) :
    (l1 ++ l2).takeWhile p = l1 ++ l2.takeWhile p := by
  induction l1 with
  | nil => rfl
  | cons c rest ih =>
    rw [List.cons_append, List.takeWhile_cons, if_pos (h c (List.mem_cons_self _ _)),
      List.cons_append, ih (fun x hx => h x (List.mem_cons_of_mem _ hx))]

theorem dropWhile_all_neg (p : Char → Bool) (l : List Char)
    (h : ∀ c ∈ l, p c = false) : l.dropWhile p = l := by
  cases l with
  | nil => rfl
  | cons c rest =>
    rw [List.dropWhile_cons, if_neg (by simp [h c (List.mem_cons_self _ _)])]

theorem leadsWith_self (l : List Char) : leadsWith l l = true := by
  induction l with
  | nil => rfl
  | cons c rest ih => simp [leadsWith, ih]

theorem strReplaceAux_nil (old new : List Char) (fuel : Nat) :
    strReplaceAux old new fuel [] = [] := by
  cases fuel <;> rfl

theorem strReplace_self (s new : List Char) (h : s ≠ []) : strReplace s s new = new := by
  unfold strReplace
  cases s with
  | nil => exact absurd rfl h
  | cons c rest =>
    show strReplaceAux (c :: rest) new (rest.length + 1) (c :: rest) = new
    rw [show strReplaceAux (c :: rest) new (rest.length + 1) (c :: rest) =
      (if (c :: rest) ≠ [] ∧ leadsWith (c :: rest) (c :: rest) = true then
        new ++ strReplaceAux (c :: rest) new rest.length ((c :: rest).drop (c :: rest).length)
      else c :: strReplaceAux (c :: rest) new rest.length rest) from rfl]
    rw [if_pos ⟨List.cons_ne_nil c rest, leadsWith_self _⟩]
    rw [List.drop_length, strReplaceAux_nil, List.append_nil]

theorem findAllAux_match (fuel : Nat) (rest : List Char) :
    findAllAux (fuel + 1) ('\x7b' :: '\x7b' :: rest) =
      match matchAt rest with
      | some (content, rest2) => content :: findAllAux fuel rest2
      | none => findAllAux fuel ('\x7b' :: rest) := rfl

/-- C7: after a node with id `n` has a stored output record exposing the
field `text` with value `v`, resolving the qualified placeholder
`\x7b\x7bn.text\x7d\x7d` yields that value, and -- provided `n` was the most
recent writer of `text`, so the scope's `text` entry is `v` -- resolving the
bare placeholder `\x7b\x7btext\x7d\x7d` yields it too. -/
theorem context_round_trip (vars : Dict) (outs : List (String × NodeRecord))
    (n : List Char) (rec : NodeRecord) (v : Value)
    (hne : n ≠ [])
    (hchars : ∀ c ∈ n, c ≠ '\x7d' ∧ c ≠ '.' ∧ pyIsSpace c = false)
    (hrec : outsGet outs n.asString = some rec)
    (hfield : dictGet (readOut vars rec.outputs) "text" = some v)
    (hbare : dictGet vars "text" = some v) :
    replaceVariables (List.asString
        ('\x7b' :: '\x7b' :: (n ++ ('.' :: 't' :: 'e' :: 'x' :: 't' :: '\x7d' :: '\x7d' :: []))))
        vars outs = pyStr v ∧
    replaceVariables "\x7b\x7btext\x7d\x7d" vars outs = pyStr v := by
  have hallNe : ∀ c ∈ n ++ ('.' :: 't' :: 'e' :: 'x' :: 't' :: []),
      (c != '\x7d') = true := by
    intro c hc
    rcases List.mem_append.mp hc with h | h
    · simp [(hchars c h).1]
    · simp only [List.mem_cons, List.not_mem_nil, or_false] at h
      rcases h with rfl | rfl | rfl | rfl | rfl <;> decide
  have htw : (n ++ ('.' :: 't' :: 'e' :: 'x' :: 't' :: '\x7d' :: '\x7d' :: [])).takeWhile
      (fun c => c != '\x7d') = n ++ ('.' :: 't' :: 'e' :: 'x' :: 't' :: []) := by
    rw [show n ++ ('.' :: 't' :: 'e' :: 'x' :: 't' :: '\x7d' :: '\x7d' :: []) =
      (n ++ ('.' :: 't' :: 'e' :: 'x' :: 't' :: [])) ++ ('\x7d' :: '\x7d' :: []) from by simp]
    rw [takeWhile_append_all _ _ _ hallNe]
    rw [show List.takeWhile (fun c => c != '\x7d') ('\x7d' :: '\x7d' :: []) = [] from rfl,
      List.append_nil]
  have hmatch : matchAt (n ++ ('.' :: 't' :: 'e' :: 'x' :: 't' :: '\x7d' :: '\x7d' :: [])) =
      some (n ++ ('.' :: 't' :: 'e' :: 'x' :: 't' :: []), []) := by
    unfold matchAt
    rw [htw]
    rw [show (n ++ ('.' :: 't' :: 'e' :: 'x' :: 't' :: '\x7d' :: '\x7d' :: [])).drop
        ((n ++ ('.' :: 't' :: 'e' :: 'x' :: 't' :: [])).length) = ('\x7d' :: '\x7d' :: []) from by
      rw [show n ++ ('.' :: 't' :: 'e' :: 'x' :: 't' :: '\x7d' :: '\x7d' :: []) =
        (n ++ ('.' :: 't' :: 'e' :: 'x' :: 't' :: [])) ++ ('\x7d' :: '\x7d' :: []) from by simp]
      exact List.drop_left _ _]
    show (if (n ++ ('.' :: 't' :: 'e' :: 'x' :: 't' :: [])).isEmpty = true then none
      else some (n ++ ('.' :: 't' :: 'e' :: 'x' :: 't' :: []), [])) = _
    rw [if_neg (by cases n <;> simp)]
  have hfind : findAll
      ('\x7b' :: '\x7b' :: (n ++ ('.' :: 't' :: 'e' :: 'x' :: 't' :: '\x7d' :: '\x7d' :: []))) =
      [n ++ ('.' :: 't' :: 'e' :: 'x' :: 't' :: [])] := by
    show findAllAux
      ((n ++ ('.' :: 't' :: 'e' :: 'x' :: 't' :: '\x7d' :: '\x7d' :: [])).length + 1 + 1) _ = _
    rw [findAllAux_match, hmatch]
    rfl
  have hns : ∀ c ∈ n ++ ('.' :: 't' :: 'e' :: 'x' :: 't' :: []), pyIsSpace c = false := by
    intro c hc
    rcases List.mem_append.mp hc with h | h
    · exact (hchars c h).2.2
    · simp only [List.mem_cons, List.not_mem_nil, or_false] at h
      rcases h with rfl | rfl | rfl | rfl | rfl <;> decide
  have hstrip : pyStrip (n ++ ('.' :: 't' :: 'e' :: 'x' :: 't' :: [])) =
      n ++ ('.' :: 't' :: 'e' :: 'x' :: 't' :: []) := by
    unfold pyStrip
    rw [dropWhile_all_neg _ _ hns,
      dropWhile_all_neg _ _ (fun c hc => hns c (List.mem_reverse.mp hc)),
      List.reverse_reverse]
  have hcont : (n ++ ('.' :: 't' :: 'e' :: 'x' :: 't' :: [])).contains '.' = true := by
    simp [List.contains, List.elem_iff]
  have htw2 : (n ++ ('.' :: 't' :: 'e' :: 'x' :: 't' :: [])).takeWhile
      (fun c => c != '.') = n := by
    rw [takeWhile_append_all _ _ _ (fun c hc => by simp [(hchars c hc).2.1])]
    rw [show List.takeWhile (fun c => c != '.') ('.' :: 't' :: 'e' :: 'x' :: 't' :: []) = []
      from rfl, List.append_nil]
  have hdrop2 : (n ++ ('.' :: 't' :: 'e' :: 'x' :: 't' :: [])).drop (n.length + 1) =
      ('t' :: 'e' :: 'x' :: 't' :: []) := by
    rw [show n ++ ('.' :: 't' :: 'e' :: 'x' :: 't' :: []) =
      (n ++ ('.' :: [])) ++ ('t' :: 'e' :: 'x' :: 't' :: []) from by simp]
    exact List.drop_left' (by simp)
  have hres : resolveName (n ++ ('.' :: 't' :: 'e' :: 'x' :: 't' :: [])) vars outs = some v := by
    simp only [resolveName]
    rw [if_pos hcont, htw2, hdrop2, hrec]
    dsimp only
    rw [show List.asString ('t' :: 'e' :: 'x' :: 't' :: []) = "text" from rfl, hfield]
  have happ : applyMatch vars outs
      ('\x7b' :: '\x7b' :: (n ++ ('.' :: 't' :: 'e' :: 'x' :: 't' :: '\x7d' :: '\x7d' :: [])))
      (n ++ ('.' :: 't' :: 'e' :: 'x' :: 't' :: [])) = (pyStr v).toList := by
    simp only [applyMatch]
    rw [hstrip, hres]
    dsimp only
    rw [show '\x7b' :: '\x7b' :: (n ++ ('.' :: 't' :: 'e' :: 'x' :: 't' :: [])) ++
        ['\x7d', '\x7d'] =
      '\x7b' :: '\x7b' :: (n ++ ('.' :: 't' :: 'e' :: 'x' :: 't' :: '\x7d' :: '\x7d' :: []))
      from by simp]
    exact strReplace_self _ _ (by simp)
  constructor
  · unfold replaceVariables
    rw [show (List.asString
        ('\x7b' :: '\x7b' :: (n ++ ('.' :: 't' :: 'e' :: 'x' :: 't' :: '\x7d' :: '\x7d' :: [])))).toList =
      '\x7b' :: '\x7b' :: (n ++ ('.' :: 't' :: 'e' :: 'x' :: 't' :: '\x7d' :: '\x7d' :: []))
      from rfl]
    rw [hfind, List.foldl_cons, happ, List.foldl_nil]
    exact asString_toList _
  · unfold replaceVariables
    rw [show ("\x7b\x7btext\x7d\x7d" : String).toList =
      ('\x7b' :: '\x7b' :: 't' :: 'e' :: 'x' :: 't' :: '\x7d' :: '\x7d' :: []) from rfl]
    rw [show findAll ('\x7b' :: '\x7b' :: 't' :: 'e' :: 'x' :: 't' :: '\x7d' :: '\x7d' :: []) =
      [('t' :: 'e' :: 'x' :: 't' :: [])] from rfl]
    have hres2 : resolveName ('t' :: 'e' :: 'x' :: 't' :: []) vars outs = some v := by
      simp only [resolveName]
      rw [if_neg (by decide)]
      dsimp only
      rw [show List.asString ('t' :: 'e' :: 'x' :: 't' :: []) = "text" from rfl]
      exact hbare
    have happ2 : applyMatch vars outs
        ('\x7b' :: '\x7b' :: 't' :: 'e' :: 'x' :: 't' :: '\x7d' :: '\x7d' :: [])
        ('t' :: 'e' :: 'x' :: 't' :: []) = (pyStr v).toList := by
      simp only [applyMatch]
      rw [show pyStrip ('t' :: 'e' :: 'x' :: 't' :: []) = ('t' :: 'e' :: 'x' :: 't' :: [])
        from rfl, hres2]
      show strReplace ('\x7b' :: '\x7b' :: 't' :: 'e' :: 'x' :: 't' :: '\x7d' :: '\x7d' :: [])
        ('\x7b' :: '\x7b' :: 't' :: 'e' :: 'x' :: 't' :: '\x7d' :: '\x7d' :: [])
        (pyStr v).toList = (pyStr v).toList
      exact strReplace_self _ _ (by simp)
    rw [List.foldl_cons, happ2, List.foldl_nil]
    exact asString_toList _

/-- Witness for `context_round_trip` at a one-letter node id. -/
theorem context_round_trip_witness :
    replaceVariables (List.asString
        ('\x7b' :: '\x7b' :: (('a' :: []) ++
          ('.' :: 't' :: 'e' :: 'x' :: 't' :: '\x7d' :: '\x7d' :: []))))
        [("text", Value.vStr "hi")]
        [("a", ⟨"completed", none, OutPtr.lit [("text", Value.vStr "hi")], []⟩)] =
      pyStr (Value.vStr "hi") ∧
    replaceVariables "\x7b\x7btext\x7d\x7d" [("text", Value.vStr "hi")]
        [("a", ⟨"completed", none, OutPtr.lit [("text", Value.vStr "hi")], []⟩)] =
      pyStr (Value.vStr "hi") :=
  context_round_trip [("text", Value.vStr "hi")]
    [("a", ⟨"completed", none, OutPtr.lit [("text", Value.vStr "hi")], []⟩)]
    ('a' :: []) ⟨"completed", none, OutPtr.lit [("text", Value.vStr "hi")], []⟩
    (Value.vStr "hi") (by decide) (by decide) rfl rfl rfl

end Pilot
